import Mathlib

/-!
Verification of the jailed codemod executor and helpers of the `bob`
repository (planner "Bob" / executor "Chad").

The embedding models Python strings as lists of Unicode code points
(`List Char`), canonical filesystem paths as lists of path segments, and
the filesystem visible to the executor as an association list from
canonical paths to decoded text contents.  Canonical path resolution
(`Path.resolve()`, which consults the symlink graph) is abstracted as a
function parameter `R : PyStr → Target` standing for
`(PROJECT_ROOT / rel).resolve()`.

Definitions are translated from:
  * `src/app.py` (`chad_execute_plan` codemod branch, `_normalize_newlines`,
    `_safe_read_text`, `_contains_suspicious_control_chars`,
    `_strip_suspicious_control_chars`, `_safe_write_text`,
    `_detect_comment_prefix`, `_resolve_in_project_jail`,
    `_slugify_for_markdown`),
  * `src/chad/executor.py` (`send_email` tool branch, `_slugify_for_markdown`),
  * `src/helpers/text.py` (`slugify_for_markdown`).
-/

namespace Chad


/-- Python strings are sequences of Unicode code points. -/
abbrev PyStr := List Char

/-- One canonical path segment. -/
abbrev Seg := List Char

/-- A canonical absolute path, as produced by `Path.resolve()`:
the list of its segments from the filesystem root. -/
abbrev Target := List Seg

/-- Embeds `_normalize_newlines` from `src/app.py`:
`text.replace("\r\n", "\n").replace("\r", "\n")`, i.e. every CRLF pair and
every remaining lone CR becomes LF. -/
def normalizeNewlines : PyStr → PyStr
  | [] => []
  | '\r' :: '\n' :: rest => '\n' :: normalizeNewlines rest
  | '\r' :: rest => '\n' :: normalizeNewlines rest
  | c :: rest => c :: normalizeNewlines rest

/-- Embeds `_contains_suspicious_control_chars` from `src/app.py`: true when
some character has code point below 32 and is not LF, CR or TAB. -/
def containsSuspiciousControlChars (t : PyStr) : Bool :=
  t.any (fun c => decide (c.toNat < 32 ∧ c ≠ '\n' ∧ c ≠ '\r' ∧ c ≠ '\t'))

/-- Embeds `_strip_suspicious_control_chars` from `src/app.py`:
`text.replace("\x0b", "").replace("\x0c", "")` — removing every occurrence of
a single character is filtering it out. -/
def stripSuspiciousControlChars (t : PyStr) : PyStr :=
  t.filter (fun c => decide (c ≠ Char.ofNat 11 ∧ c ≠ Char.ofNat 12))

/-- Splitting a Python string on `"\n"` (as done by `new_text.split("\n")` in
`src/app.py`): always one more part than there are newlines. -/
def splitOnNL : PyStr → List PyStr
  | [] => [[]]
  | c :: rest =>
      let r := splitOnNL rest
      if c = '\n' then [] :: r else (c :: r.headI) :: r.tail

/-- Embeds `"\n".join(lines)` from `src/app.py`. -/
def joinNL (ls : List PyStr) : PyStr :=
  (List.intersperse ['\n'] ls).flatten

/-- The characters for which Python `str.isspace()` is true (and which the
who-argument-less `str.strip` / `str.rstrip` / `str.lstrip` remove):
`\t \n \v \f \r`, `\x1c`–`\x1f`, space, NEL, NBSP, OGHAM SPACE MARK,
`U+2000`–`U+200A`, LINE/PARAGRAPH SEPARATOR, NARROW NBSP, MMSP and
IDEOGRAPHIC SPACE. -/
def pyIsSpace (c : Char) : Bool :=
  decide ((9 ≤ c.toNat ∧ c.toNat ≤ 13) ∨ (28 ≤ c.toNat ∧ c.toNat ≤ 32) ∨
    c.toNat = 0x85 ∨ c.toNat = 0xa0 ∨ c.toNat = 0x1680 ∨
    (0x2000 ≤ c.toNat ∧ c.toNat ≤ 0x200a) ∨ c.toNat = 0x2028 ∨
    c.toNat = 0x2029 ∨ c.toNat = 0x202f ∨ c.toNat = 0x205f ∨ c.toNat = 0x3000)

/-- Python `str.rstrip()` with no argument: drop trailing whitespace. -/
def pyRstrip (s : PyStr) : PyStr :=
  (s.reverse.dropWhile pyIsSpace).reverse

/-- Python `str.lstrip()` with no argument: drop leading whitespace. -/
def pyLstrip (s : PyStr) : PyStr :=
  s.dropWhile pyIsSpace

/-- Python `str.strip()` with no argument. -/
def pyStrip (s : PyStr) : PyStr :=
  pyRstrip (pyLstrip s)

/-- Characters Python `str.splitlines()` treats as a line boundary
(CRLF is treated as a single boundary by the function below). -/
def isLineBoundary (c : Char) : Bool :=
  decide (c = '\n' ∨ c = '\r' ∨ c.toNat = 11 ∨ c.toNat = 12 ∨ c.toNat = 28 ∨
    c.toNat = 29 ∨ c.toNat = 30 ∨ c.toNat = 0x85 ∨ c.toNat = 0x2028 ∨
    c.toNat = 0x2029)

/-- Python `str.splitlines()`: each boundary terminates a line, a trailing
segment without a boundary is still a line, and the empty string yields no
lines. -/
def pySplitlines : PyStr → List PyStr
  | [] => []
  | '\r' :: '\n' :: rest => [] :: pySplitlines rest
  | c :: rest =>
      if isLineBoundary c then [] :: pySplitlines rest
      else
        match pySplitlines rest with
        | [] => [[c]]
        | l :: ls => (c :: l) :: ls

/-- ASCII lowering, as applied by Python `str.lower()` to the ASCII range
(extensions used on file-name suffixes only). -/
def asciiLower (c : Char) : Char :=
  if 65 ≤ c.toNat ∧ c.toNat ≤ 90 then Char.ofNat (c.toNat + 32) else c

/-- Embeds `pathlib.PurePath.suffix`: the substring of the final path component from
its last dot, empty when the dot is the first or last character or absent. -/
def pySuffix (name : Seg) : PyStr :=
  let rev := name.reverse
  let ext := rev.takeWhile (fun c => decide (c ≠ '.'))
  match rev.dropWhile (fun c => decide (c ≠ '.')) with
  | [] => []
  | _ :: rem => if rem = [] ∨ ext = [] then [] else '.' :: ext.reverse

/-- The lower-cased suffix of the last segment of a resolved target, as in
`target_path.suffix.lower()` from `src/app.py`. -/
def targetExt (target : Target) : PyStr :=
  (pySuffix (target.getLastD [])).map asciiLower

/-- Embeds `_detect_comment_prefix` from `src/app.py`: map the lower-cased
file extension to a line-comment token. -/
def detectCommentStyle (target : Target) : PyStr :=
  let ext := targetExt target
  if ext = ".py".data ∨ ext = ".sh".data then "# ".data
  else if ext = ".js".data ∨ ext = ".ts".data ∨ ext = ".jsx".data ∨
      ext = ".tsx".data ∨ ext = ".c".data ∨ ext = ".cpp".data ∨
      ext = ".h".data then "// ".data
  else if ext = ".php".data then "// ".data
  else "# ".data

/-- The meta-narration marker scrubbed from Python files by the overwrite
branch of `chad_execute_plan` (`src/app.py`). -/
def narrationMarker : PyStr := "rest of code unchanged".data

/-- The pound-sterling character given belt-and-braces treatment by the
Unicode guard in `src/app.py`. -/
def poundSign : Char := Char.ofNat 163

/-- One iteration of the Unicode-restoration loop of the overwrite branch in
`src/app.py`: keep the original line when it contained `£` (or any non-ASCII
character) and the replacement line lost it. -/
def restoreLine (oldLine newLine : PyStr) : PyStr :=
  if poundSign ∈ oldLine ∧ poundSign ∉ newLine then oldLine
  else if (∃ c ∈ oldLine, 127 < c.toNat) ∧ ¬ ∃ c ∈ newLine, 127 < c.toNat then
    oldLine
  else newLine

/-- The whole restoration loop: indices up to the shorter line count are
processed by `restoreLine`; later replacement lines pass through. -/
def restoreAll (oldLines newLines : List PyStr) : List PyStr :=
  List.zipWith restoreLine oldLines newLines ++ newLines.drop oldLines.length

/-- The Python-file-specific guard of the overwrite branch in `src/app.py`:
drop lines containing the narration marker, then restore original lines whose
Unicode the replacement lost. -/
def pyGuard (original newText : PyStr) : PyStr :=
  let filtered :=
    joinNL ((splitOnNL newText).filter (fun l => decide (¬ narrationMarker <:+: l)))
  let oldLines := splitOnNL original
  let newLines := splitOnNL filtered
  joinNL (restoreAll oldLines newLines)

/-- The filesystem the executor sees: decoded text content per canonical
path.  (Directories and binary data are outside the executor's read/write
paths and are not modelled.) -/
abbrev FS := List (Target × PyStr)

/-- Content stored at a canonical path, if the file exists. -/
def fsRead (fs : FS) (p : Target) : Option PyStr :=
  (fs.find? (fun e => decide (e.1 = p))).map (·.2)

/-- Store content at a canonical path (create or overwrite). -/
def fsWrite (fs : FS) (p : Target) (t : PyStr) : FS :=
  (p, t) :: fs.filter (fun e => decide (e.1 ≠ p))

/-- Canonical-path resolution abstracted: `R rel` stands for
`(PROJECT_ROOT / rel).resolve()` of `src/app.py`, a pure function of the
relative-path string and the symlink graph at call time. -/
abbrev Resolver := PyStr → Target

/-- Embeds `_resolve_in_project_jail` from `src/app.py`: the empty string is
treated as `"."`, the resolved path must have the project root as a segment
prefix (`Path.relative_to` succeeds exactly then), otherwise `None`. -/
def resolveInProjectJail (R : Resolver) (root : Target) (rel : PyStr) :
    Option Target :=
  let q := if rel = [] then ['.'] else rel
  let target := R q
  if root <+: target then some target else none

/-- Embeds `str(target_path.relative_to(PROJECT_ROOT))` from `src/app.py`: the
slash-joined segments after the root, `"."` when the target is the root. -/
def relStr (root : Target) (target : Target) : PyStr :=
  let r := target.drop root.length
  if r = [] then ['.'] else (List.intersperse ['/'] r).flatten

/-- One planned mutation from `task.edits[]` (`src/app.py`): a missing or
empty `file`/`operation`/`content` key is the empty string. -/
structure Edit where
  file : PyStr
  op : PyStr
  content : PyStr
deriving DecidableEq

/-- One audit line of `edit_logs` (`src/app.py`). -/
structure LogEntry where
  file : PyStr
  op : PyStr
  reason : PyStr
deriving DecidableEq

/-- The accumulating state of the codemod loop of `chad_execute_plan`
(`src/app.py`): the filesystem, `touched` and `edit_logs`, plus `writes`, the
instrumentation trace of the canonical targets actually passed to
`_safe_write_text`. -/
structure ExecState where
  fs : FS
  touched : List PyStr
  writes : List Target
  logs : List LogEntry
deriving DecidableEq

def reasonShape : PyStr := "missing file or operation in edit".data

def reasonEscape : PyStr := "target path escapes project jail".data

def reasonMissingFile : PyStr := "target file does not exist on disk".data

def reasonWarnNew : PyStr :=
  "new content contained suspicious control characters which were stripped".data

def reasonWarnResulting : PyStr :=
  "resulting content contained suspicious control characters which were stripped".data

def reasonNoopOverwrite : PyStr := "new content is identical to existing file".data

def reasonOverwriteOk : PyStr := "file overwritten with new content".data

def reasonNoopAppend : PyStr := "append produced no effective change".data

def reasonAppendOk : PyStr := "content appended to bottom of file".data

def reasonNoopPrepend : PyStr := "prepend produced no effective change".data

def reasonDocstringOk : PyStr :=
  "docstring-style block prepended to Python file".data

def reasonCommentOk : PyStr := "comment line prepended to file".data

/-- Embeds a lowercase hexadecimal digit, as CPython prints in `\xNN`
escapes. -/
def hexDigit (n : Nat) : Char :=
  if n < 10 then Char.ofNat (48 + n) else Char.ofNat (87 + n)

/-- Embeds how CPython `repr` renders one character of a string once the quote
character `q` is fixed: the quote character and the backslash are
backslash-escaped, tab, newline and carriage return become `\t`, `\n`, `\r`,
the remaining C0 controls and DEL become `\xNN`, and every other character is
kept verbatim. This is exact for every character below U+0080; a
non-printable character above U+007F (which CPython would also escape) is
kept verbatim, so the model is exact on ASCII operation strings. -/
def pyReprChar (q : Char) (c : Char) : PyStr :=
  if c = q ∨ c = Char.ofNat 92 then [Char.ofNat 92, c]
  else if c = Char.ofNat 9 then [Char.ofNat 92, 't']
  else if c = Char.ofNat 10 then [Char.ofNat 92, 'n']
  else if c = Char.ofNat 13 then [Char.ofNat 92, 'r']
  else if c.toNat < 32 ∨ c.toNat = 127 then
    [Char.ofNat 92, 'x', hexDigit (c.toNat / 16), hexDigit (c.toNat % 16)]
  else [c]

/-- Embeds CPython `repr` on strings: the quote is a single quote unless the
string contains a single quote and no double quote (then a double quote), and
each character is rendered by `pyReprChar`. -/
def pyRepr (s : PyStr) : PyStr :=
  let q : Char :=
    if Char.ofNat 39 ∈ s ∧ Char.ofNat 34 ∉ s then Char.ofNat 34 else Char.ofNat 39
  q :: (s.map (pyReprChar q)).flatten ++ [q]

/-- Embeds `f"unknown operation {op!r}"` from `src/app.py`, with the operation
rendered by the `repr` model `pyRepr`. -/
def reasonUnknownOp (op : PyStr) : PyStr :=
  "unknown operation ".data ++ pyRepr op

/-- The `(none)` placeholder used in shape-failure log entries. -/
def noneStr : PyStr := "(none)".data

def opOverwrite : PyStr := "create_or_overwrite_file".data

def opAppend : PyStr := "append_to_bottom".data

def opPrepend : PyStr := "prepend_comment".data

/-- The shared tail of every operation branch in `src/app.py`: append the
control-character warning when one was raised, then either log the no-op (the
computed text equals the normalized original) or write the text (normalized,
as `_safe_write_text` does), record the jail-relative path in `touched` and
log the success reason. -/
def finishEdit (root : Target) (target : Target) (e : Edit) (st : ExecState)
    (original : PyStr) (susp : Bool) (warnReason : PyStr) (newText : PyStr)
    (noopReason okReason : PyStr) : ExecState :=
  let st1 :=
    if susp then { st with logs := st.logs ++ [⟨e.file, e.op, warnReason⟩] }
    else st
  if normalizeNewlines original = newText then
    { st1 with logs := st1.logs ++ [⟨e.file, e.op, noopReason⟩] }
  else
    { fs := fsWrite st1.fs target (normalizeNewlines newText),
      touched := st1.touched ++ [relStr root target],
      writes := st1.writes ++ [target],
      logs := st1.logs ++ [⟨e.file, e.op, okReason⟩] }

/-- Normalize, test for suspicious control characters, and strip them when
present: the shared first steps of every content branch of `src/app.py`. -/
def suspProcess (raw : PyStr) : Bool × PyStr :=
  let new0 := normalizeNewlines raw
  let susp := containsSuspiciousControlChars new0
  (susp, if susp then stripSuspiciousControlChars new0 else new0)

/-- The `create_or_overwrite_file` branch of `src/app.py`: normalize the edit
content, strip suspicious control characters (with a warning), and on `.py`
targets apply the narration filter and the Unicode-restoration guard. -/
def overwriteNewText (isPy : Bool) (original content : PyStr) :
    Bool × PyStr :=
  let p := suspProcess content
  (p.1, if isPy then pyGuard original p.2 else p.2)

/-- The `append_to_bottom` branch of `src/app.py`:
`original.rstrip() + "\n\n" + content + "\n"`, normalized, then stripped of
suspicious control characters (with a warning). -/
def appendNewText (original content : PyStr) : Bool × PyStr :=
  suspProcess (pyRstrip original ++ '\n' :: '\n' :: content ++ ['\n'])

/-- The docstring-style `prepend_comment` text of `src/app.py`: after a
shebang first line when present, otherwise before everything. -/
def prependDocstringText (original content : PyStr) : PyStr :=
  let lines := pySplitlines original
  match lines with
  | [] => content ++ '\n' :: '\n' :: original
  | l0 :: rest =>
      if "#!".data <+: l0 then
        l0 ++ '\n' :: '\n' :: content ++ '\n' :: '\n' :: joinNL rest
      else content ++ '\n' :: '\n' :: original

/-- One iteration of the codemod loop of `chad_execute_plan` in `src/app.py`
(`for edit in edits: ...`), acting on the accumulated state. -/
def execEdit (R : Resolver) (root : Target) (st : ExecState) (e : Edit) :
    ExecState :=
  if e.file = [] ∨ e.op = [] then
    { st with
      logs := st.logs ++
        [⟨if e.file = [] then noneStr else e.file,
          if e.op = [] then noneStr else e.op, reasonShape⟩] }
  else
    let target := R e.file
    if ¬ root <+: target then
      { st with logs := st.logs ++ [⟨e.file, e.op, reasonEscape⟩] }
    else
      match fsRead st.fs target with
      | none =>
          { st with logs := st.logs ++ [⟨e.file, e.op, reasonMissingFile⟩] }
      | some raw =>
          let original := normalizeNewlines raw
          let isPy := targetExt target = ".py".data
          if e.op = opOverwrite then
            let p := overwriteNewText isPy original e.content
            finishEdit root target e st original p.1 reasonWarnNew p.2
              reasonNoopOverwrite reasonOverwriteOk
          else if e.op = opAppend then
            let p := appendNewText original e.content
            finishEdit root target e st original p.1 reasonWarnResulting p.2
              reasonNoopAppend reasonAppendOk
          else if e.op = opPrepend then
            if isPy ∧
                ("\x22\x22\x22".data <+: pyLstrip e.content ∨
                 "\x27\x27\x27".data <+: pyLstrip e.content) then
              let p := suspProcess (prependDocstringText original e.content)
              finishEdit root target e st original p.1 reasonWarnResulting p.2
                reasonNoopPrepend reasonDocstringOk
            else
              let p := suspProcess
                (detectCommentStyle target ++ e.content ++ '\n' :: '\n' :: original)
              finishEdit root target e st original p.1 reasonWarnResulting p.2
                reasonNoopPrepend reasonCommentOk
          else
            { st with logs := st.logs ++ [⟨e.file, e.op, reasonUnknownOp e.op⟩] }

/-- The whole codemod branch of `chad_execute_plan` (`src/app.py`): process
the edits in list order starting from empty `touched` and `edit_logs`. -/
def chadExecuteCodemod (R : Resolver) (root : Target) (fs : FS)
    (edits : List Edit) : ExecState :=
  edits.foldl (execEdit R root) ⟨fs, [], [], []⟩

/-- What one loop iteration does, as a function of the filesystem alone. -/
def stepState (R : Resolver) (root : Target) (fs : FS) (e : Edit) : ExecState :=
  execEdit R root ⟨fs, [], [], []⟩ e

/-- The run, restated as a structurally recursive function of the filesystem:
per-edit contributions to `touched`, `writes` and `edit_logs` concatenated in
edit order. -/
def runDelta (R : Resolver) (root : Target) : FS → List Edit → ExecState
  | fs, [] => ⟨fs, [], [], []⟩
  | fs, e :: es =>
      let d := stepState R root fs e
      let r := runDelta R root d.fs es
      ⟨r.fs, d.touched ++ r.touched, d.writes ++ r.writes, d.logs ++ r.logs⟩

/-- The `file` field a log entry shows for an edit (shape failures show
`(none)`). -/
def displayFile (e : Edit) : PyStr := if e.file = [] then noneStr else e.file

/-- The `operation` field a log entry shows for an edit. -/
def displayOp (e : Edit) : PyStr := if e.op = [] then noneStr else e.op

/-- Log reasons that report stripped control characters rather than the
outcome of an edit. -/
def isWarnReason (r : PyStr) : Prop :=
  r = reasonWarnNew ∨ r = reasonWarnResulting

/-- The per-edit groups of log entries a run produces, in edit order. -/
def runGroups (R : Resolver) (root : Target) : FS → List Edit → List (List LogEntry)
  | _, [] => []
  | fs, e :: es =>
      (stepState R root fs e).logs ::
        runGroups R root (stepState R root fs e).fs es

/-- Resolver fixture for witnesses: `a.txt` resolves inside the jail `/r`;
the empty and dot paths resolve to the root; anything else resolves to
`/etc`, outside the jail. -/
def wRes1 : Resolver := fun pth =>
  if pth = "a.txt".data then [['r'], "a.txt".data]
  else if pth = ['.'] ∨ pth = [] then [['r']] else ["etc".data]

/-- Edit fixture: the spec scenario jail-escape edit. -/
def wEdit1 : Edit := ⟨"../../etc/passwd".data, opOverwrite, ['x']⟩

/-- Constant resolver fixture: everything resolves to `/r/a.txt`. -/
def wRes2 : Resolver := fun _ => [['r'], "a.txt".data]

/-- State fixture: `/r/a.txt` exists containing `old`. -/
def wSt2 : ExecState := ⟨[([['r'], "a.txt".data], "old".data)], [], [], []⟩

/-- Edit fixture: overwrite `a.txt` with `new`. -/
def wEditOw : Edit := ⟨"a.txt".data, opOverwrite, "new".data⟩

/-- Models `os.getenv`: the process environment at call time. -/
abbrev Getenv := String → Option PyStr

/-- Python `x or y` for an optional string `x` (falsy when absent or empty),
as used on `os.getenv(...)` and `tool_args.get(...)` results. -/
def pyOrStr (o : Option PyStr) (d : PyStr) : PyStr :=
  match o with
  | some s => if s = [] then d else s
  | none => d

/-- Embeds `tool_args.get(key)`: first binding of the key, if any. -/
def argGet (args : List (String × PyStr)) (k : String) : Option PyStr :=
  (args.find? (fun kv => decide (kv.1 = k))).map (·.2)

/-- Embeds the recipient computation of the `send_email` branch of
`src/chad/executor.py`: `(os.getenv("SMTP_TO") or os.getenv("SMTP_TEST_TO")
or "").strip()` — the caller-supplied arguments never enter it. -/
def sendEmailToAddr (env : Getenv) : PyStr :=
  pyStrip (pyOrStr (env "SMTP_TO") (pyOrStr (env "SMTP_TEST_TO") []))

/-- The message the `send_email` branch hands to `smtplib`
(`msg["From"]`, `msg["To"]`, `msg["Subject"]`, `set_content(body)`). -/
structure EmailMsg where
  fromAddr : PyStr
  toAddr : PyStr
  subject : PyStr
  body : PyStr
deriving DecidableEq

/-- Outcome of the `send_email` branch: the two configuration-error messages,
or a built message handed to the SMTP server. -/
inductive SendEmailOutcome
  | notConfigured
  | incomplete
  | sent (msg : EmailMsg)
deriving DecidableEq

/-- Python falsiness of an optional string (`not x`). -/
abbrev pyFalsy (o : Option PyStr) : Prop := o = none ∨ o = some []

/-- The recipient-relevant slice of the `send_email` branch of
`src/chad/executor.py`: `to_addr` forced from `SMTP_TO`/`SMTP_TEST_TO`,
`subject`/`body` from the caller's `tool_args`, `from_addr` from
`SMTP_FROM`/`SMTP_USERNAME`; missing recipient or SMTP settings short-circuit
without sending.  (The markdown-note auto-attachment, which can replace an
empty subject and add attachments but never touches `to_addr`, is outside
this slice.) -/
def sendEmailRun (env : Getenv) (toolArgs : List (String × PyStr)) :
    SendEmailOutcome :=
  let toAddr := sendEmailToAddr env
  let subject := pyStrip (pyOrStr (argGet toolArgs "subject") [])
  let body := pyOrStr (argGet toolArgs "body") []
  let smtpHost := env "SMTP_HOST"
  let fromAddr :=
    match env "SMTP_FROM" with
    | some s => if s = [] then env "SMTP_USERNAME" else some s
    | none => env "SMTP_USERNAME"
  if toAddr = [] then .notConfigured
  else if pyFalsy smtpHost ∨ pyFalsy fromAddr then .incomplete
  else .sent ⟨pyOrStr fromAddr [], toAddr,
    (if subject = [] then "(no subject)".data else subject), body⟩

/-- Environment fixture: recipient, host and sender configured. -/
def wEnv : Getenv := fun k =>
  if k = "SMTP_TO" then some "ops@ghostfrog.dev".data
  else if k = "SMTP_HOST" then some "smtp.example.com".data
  else if k = "SMTP_FROM" then some "bob@ghostfrog.dev".data
  else none

/-- Embeds `base.strip("-")`: remove leading and trailing dashes. -/
def stripDashes (s : PyStr) : PyStr :=
  (((s.dropWhile (fun c => decide (c = '-'))).reverse.dropWhile
    (fun c => decide (c = '-'))).reverse)

/-- One pass of `base.replace("--", "-")`: left-to-right, non-overlapping. -/
def replaceDashPairs : PyStr → PyStr
  | [] => []
  | [c] => [c]
  | c :: d :: rest =>
      if c = '-' ∧ d = '-' then '-' :: replaceDashPairs rest
      else c :: replaceDashPairs (d :: rest)

/-- The `while "--" in base: base = base.replace("--", "-")` loop, driven by
a fuel bound; each pass shortens the string, so `s.length` passes suffice. -/
def collapseDashesFuel : Nat → PyStr → PyStr
  | 0, s => s
  | n + 1, s =>
      if ['-', '-'] <:+: s then collapseDashesFuel n (replaceDashPairs s)
      else s

def collapseDashes (s : PyStr) : PyStr := collapseDashesFuel s.length s

/-- Embeds `slugify_for_markdown` from `src/helpers/text.py` (identical to
`_slugify_for_markdown` in `src/app.py` and `src/chad/executor.py`).  Python
Unicode character primitives are parameters: `lower` is `str.lower` per
character (one code point may lower to several, e.g. U+0130), `isAlnum` is
`str.isalnum` per character, and `ts` is the formatted
`datetime.now().strftime("%Y%m%d-%H%M%S")` timestamp. -/
def slugify_for_markdown (lower : Char → PyStr) (isAlnum : Char → Bool)
    (ts : PyStr) (title : PyStr) : PyStr :=
  let base := stripDashes
    (((pyStrip title).map
      (fun ch => if isAlnum ch then lower ch else ['-'])).flatten)
  if base = [] then "note-".data ++ ts
  else collapseDashes base

/-- CPython `str.lower` on the code points this file evaluates it at:
U+0130 (LATIN CAPITAL LETTER I WITH DOT ABOVE) has the full lowercase mapping
U+0069 U+0307 (Unicode SpecialCasing.txt), two code points; the other
characters used here are ASCII and lower through the simple mapping. -/
def uLower (c : Char) : PyStr :=
  if c = Char.ofNat 0x130 then ['i', Char.ofNat 0x307] else [c.toLower]

/-- Python `str.isalnum` on the code points this file evaluates it at: ASCII
alphanumerics and U+0130 (category Lu) are alphanumeric; U+0307 COMBINING DOT
ABOVE (category Mn) is not. -/
def uAlnum (c : Char) : Bool :=
  c.isAlphanum || decide (c = Char.ofNat 0x130)

/-- Some pair of adjacent dashes occurs in the string. -/
def containsDD : PyStr → Bool
  | [] => false
  | c :: rest =>
      (decide (c = '-') && decide (rest.head? = some '-')) || containsDD rest

/-- Models `str.lower` restricted to characters that are already lowercase (it is
the identity there) — adequate for the witness title below, whose letters
are all lowercase. -/
def wLowerId (c : Char) : PyStr := [c]

/-- Models `str.isalnum` restricted to the ASCII range. -/
def wAlnumAscii (c : Char) : Bool := c.isAlphanum

theorem joinNL_nil : joinNL [] = [] := rfl

theorem joinNL_single (l : PyStr) : joinNL [l] = l := by
  simp [joinNL, List.intersperse]

theorem joinNL_cons_cons (a b : PyStr) (t : List PyStr) :
    joinNL (a :: b :: t) = a ++ '\n' :: joinNL (b :: t) := by
  simp [joinNL, List.intersperse]

theorem joinNL_cons_char (c : Char) (l : PyStr) (ls : List PyStr) :
    joinNL ((c :: l) :: ls) = c :: joinNL (l :: ls) := by
  cases ls with
  | nil => simp [joinNL_single]
  | cons m ms => simp [joinNL_cons_cons]

theorem splitOnNL_ne_nil (s : PyStr) : splitOnNL s ≠ [] := by
  cases s with
  | nil => simp [splitOnNL]
  | cons c rest =>
    by_cases h : c = '\n' <;> simp [splitOnNL, h]

theorem splitOnNL_cons_nl (rest : PyStr) :
    splitOnNL ('\n' :: rest) = [] :: splitOnNL rest := by
  simp [splitOnNL]

theorem splitOnNL_cons_ne (c : Char) (rest : PyStr) (h : c ≠ '\n')
    (l : PyStr) (ls : List PyStr) (hr : splitOnNL rest = l :: ls) :
    splitOnNL (c :: rest) = (c :: l) :: ls := by
  simp [splitOnNL, h, hr]

theorem splitOnNL_no_nl (s : PyStr) : ∀ l ∈ splitOnNL s, '\n' ∉ l := by
  induction s with
  | nil => intro l hl; simp [splitOnNL] at hl; simp [hl]
  | cons c rest ih =>
    intro l hl
    by_cases h : c = '\n'
    · subst h
      rw [splitOnNL_cons_nl] at hl
      rcases List.mem_cons.mp hl with h1 | h2
      · simp [h1]
      · exact ih l h2
    · cases hr : splitOnNL rest with
      | nil => exact absurd hr (splitOnNL_ne_nil rest)
      | cons t ts =>
        rw [splitOnNL_cons_ne c rest h t ts hr] at hl
        rcases List.mem_cons.mp hl with h1 | h2
        · subst h1
          intro hmem
          rcases List.mem_cons.mp hmem with h3 | h4
          · exact h h3.symm
          · exact ih t (by simp [hr]) h4
        · exact ih l (by simp [hr, h2])

theorem splitOnNL_subset (s : PyStr) :
    ∀ l ∈ splitOnNL s, ∀ c ∈ l, c ∈ s := by
  induction s with
  | nil => intro l hl; simp [splitOnNL] at hl; simp [hl]
  | cons a rest ih =>
    intro l hl c hc
    by_cases h : a = '\n'
    · subst h
      rw [splitOnNL_cons_nl] at hl
      rcases List.mem_cons.mp hl with h1 | h2
      · simp [h1] at hc
      · exact List.mem_cons_of_mem _ (ih l h2 c hc)
    · cases hr : splitOnNL rest with
      | nil => exact absurd hr (splitOnNL_ne_nil rest)
      | cons t ts =>
        rw [splitOnNL_cons_ne a rest h t ts hr] at hl
        rcases List.mem_cons.mp hl with h1 | h2
        · subst h1
          rcases List.mem_cons.mp hc with h3 | h4
          · simp [h3]
          · exact List.mem_cons_of_mem _ (ih t (by simp [hr]) c h4)
        · exact List.mem_cons_of_mem _ (ih l (by simp [hr, h2]) c hc)

theorem joinNL_splitOnNL (s : PyStr) : joinNL (splitOnNL s) = s := by
  induction s with
  | nil => simp [splitOnNL, joinNL_single]
  | cons c rest ih =>
    cases hr : splitOnNL rest with
    | nil => exact absurd hr (splitOnNL_ne_nil rest)
    | cons t ts =>
      by_cases h : c = '\n'
      · subst h
        rw [splitOnNL_cons_nl, hr]
        rw [hr] at ih
        simp [joinNL_cons_cons, ih]
      · rw [splitOnNL_cons_ne c rest h t ts hr]
        rw [hr] at ih
        rw [joinNL_cons_char, ih]

theorem splitOnNL_joinNL (ls : List PyStr) (hne : ls ≠ [])
    (hnl : ∀ l ∈ ls, '\n' ∉ l) : splitOnNL (joinNL ls) = ls := by
  induction ls with
  | nil => exact absurd rfl hne
  | cons l ls ih =>
    cases ls with
    | nil =>
      rw [joinNL_single]
      have hl : '\n' ∉ l := hnl l (by simp)
      clear ih hne hnl
      induction l with
      | nil => simp [splitOnNL]
      | cons c cs ihc =>
        have hc : c ≠ '\n' := fun h => hl (h ▸ List.mem_cons_self c cs)
        have hcs : '\n' ∉ cs := fun h => hl (List.mem_cons_of_mem _ h)
        exact splitOnNL_cons_ne c cs hc cs [] (ihc hcs)
    | cons m ms =>
      rw [joinNL_cons_cons]
      have hl : '\n' ∉ l := hnl l (by simp)
      have hrest : splitOnNL (joinNL (m :: ms)) = m :: ms :=
        ih (by simp) (fun x hx => hnl x (List.mem_cons_of_mem _ hx))
      clear ih hne hnl
      induction l with
      | nil => simp [splitOnNL_cons_nl, hrest]
      | cons c cs ihc =>
        have hc : c ≠ '\n' := fun h => hl (h ▸ List.mem_cons_self c cs)
        have hcs : '\n' ∉ cs := fun h => hl (List.mem_cons_of_mem _ h)
        have hprev := ihc hcs
        simpa using splitOnNL_cons_ne c (cs ++ '\n' :: joinNL (m :: ms)) hc
          cs (m :: ms) hprev

theorem normalizeNewlines_no_cr (s : PyStr) : '\r' ∉ normalizeNewlines s := by
  induction s using normalizeNewlines.induct with
  | case1 => simp [normalizeNewlines]
  | case2 rest ih =>
    rw [normalizeNewlines.eq_2]
    simp only [List.mem_cons]
    rintro (h | h)
    · exact absurd h (by decide)
    · exact ih h
  | case3 rest h ih =>
    rw [normalizeNewlines.eq_3 rest h]
    simp only [List.mem_cons]
    rintro (hh | hh)
    · exact absurd hh (by decide)
    · exact ih hh
  | case4 c rest h1 h2 ih =>
    rw [normalizeNewlines.eq_4 c rest h1 h2]
    simp only [List.mem_cons]
    rintro (hh | hh)
    · exact h2 hh.symm
    · exact ih hh

theorem normalizeNewlines_eq_self (s : PyStr) (h : '\r' ∉ s) :
    normalizeNewlines s = s := by
  induction s with
  | nil => rfl
  | cons c rest ih =>
    have hc : c ≠ '\r' := fun hh => h (hh ▸ List.mem_cons_self c rest)
    have hrest : '\r' ∉ rest := fun hh => h (List.mem_cons_of_mem _ hh)
    rw [normalizeNewlines.eq_4 c rest (fun _ hc2 _ => hc hc2) (fun hc2 => hc hc2),
      ih hrest]

theorem normalizeNewlines_idem (s : PyStr) :
    normalizeNewlines (normalizeNewlines s) = normalizeNewlines s :=
  normalizeNewlines_eq_self _ (normalizeNewlines_no_cr s)

theorem fsRead_fsWrite_self (fs : FS) (p : Target) (t : PyStr) :
    fsRead (fsWrite fs p t) p = some t := by
  simp [fsRead, fsWrite, List.find?]

theorem fsRead_fsWrite_ne (fs : FS) (p q : Target) (t : PyStr) (h : q ≠ p) :
    fsRead (fsWrite fs p t) q = fsRead fs q := by
  simp only [fsRead, fsWrite]
  rw [List.find?_cons_of_neg _
    (by simp only [decide_eq_true_eq]; exact fun hh => h hh.symm)]
  congr 1
  induction fs with
  | nil => rfl
  | cons e es ih =>
    by_cases he : e.1 = p
    · rw [List.filter_cons_of_neg (by simp [he]),
        List.find?_cons_of_neg _
          (by simp only [decide_eq_true_eq]; rw [he]; exact fun hh => h hh.symm),
        ih]
    · rw [List.filter_cons_of_pos (by simp [he])]
      by_cases hq : e.1 = q
      · rw [List.find?_cons_of_pos _ (by simp [hq]),
          List.find?_cons_of_pos _ (by simp [hq])]
      · rw [List.find?_cons_of_neg _ (by simp [hq]),
          List.find?_cons_of_neg _ (by simp [hq]), ih]

theorem execEdit_eq_delta (R : Resolver) (root : Target) (st : ExecState)
    (e : Edit) :
    execEdit R root st e =
      ⟨(stepState R root st.fs e).fs,
       st.touched ++ (stepState R root st.fs e).touched,
       st.writes ++ (stepState R root st.fs e).writes,
       st.logs ++ (stepState R root st.fs e).logs⟩ := by
  unfold stepState execEdit
  dsimp only
  split
  · simp
  · split
    · simp
    · split
      · simp
      · unfold finishEdit
        dsimp only
        split
        · split <;> split <;> simp
        · split
          · split <;> split <;> simp
          · split
            · split
              · split <;> split <;> simp
              · split <;> split <;> simp
            · simp

theorem foldl_execEdit_eq_runDelta (R : Resolver) (root : Target)
    (edits : List Edit) : ∀ st : ExecState,
    edits.foldl (execEdit R root) st =
      ⟨(runDelta R root st.fs edits).fs,
       st.touched ++ (runDelta R root st.fs edits).touched,
       st.writes ++ (runDelta R root st.fs edits).writes,
       st.logs ++ (runDelta R root st.fs edits).logs⟩ := by
  induction edits with
  | nil => intro st; simp [runDelta]
  | cons e es ih =>
    intro st
    rw [List.foldl_cons, ih (execEdit R root st e),
      execEdit_eq_delta R root st e]
    simp [runDelta]

theorem chadExecuteCodemod_eq_runDelta (R : Resolver) (root : Target)
    (fs : FS) (edits : List Edit) :
    chadExecuteCodemod R root fs edits = runDelta R root fs edits := by
  rw [chadExecuteCodemod, foldl_execEdit_eq_runDelta]
  simp

theorem reasonUnknownOp_not_warn (op : PyStr) :
    ¬ isWarnReason (reasonUnknownOp op) := by
  rintro (h | h) <;>
    simp [reasonUnknownOp, pyRepr, reasonWarnNew, reasonWarnResulting] at h

theorem stepState_touched_writes (R : Resolver) (root : Target) (fs : FS)
    (e : Edit) :
    (stepState R root fs e).touched =
      ((stepState R root fs e).writes).map (relStr root) ∧
    ∀ w ∈ (stepState R root fs e).writes, root <+: w ∧ w = R e.file := by
  unfold stepState execEdit
  dsimp only
  split
  · simp
  · split
    · simp
    · rename_i hnn
      have hjail : root <+: R e.file := not_not.mp hnn
      split
      · simp
      · unfold finishEdit
        dsimp only
        split
        · split <;> split <;> simp_all
        · split
          · split <;> split <;> simp_all
          · split
            · split
              · split <;> split <;> simp_all
              · split <;> split <;> simp_all
            · simp

theorem warnReason_new : isWarnReason reasonWarnNew := Or.inl rfl

theorem warnReason_resulting : isWarnReason reasonWarnResulting := Or.inr rfl

theorem notWarn_shape : ¬ isWarnReason reasonShape := by
  rintro (h | h) <;> exact absurd h (by decide)

theorem notWarn_escape : ¬ isWarnReason reasonEscape := by
  rintro (h | h) <;> exact absurd h (by decide)

theorem notWarn_missing : ¬ isWarnReason reasonMissingFile := by
  rintro (h | h) <;> exact absurd h (by decide)

theorem notWarn_noopOverwrite : ¬ isWarnReason reasonNoopOverwrite := by
  rintro (h | h) <;> exact absurd h (by decide)

theorem notWarn_overwriteOk : ¬ isWarnReason reasonOverwriteOk := by
  rintro (h | h) <;> exact absurd h (by decide)

theorem notWarn_noopAppend : ¬ isWarnReason reasonNoopAppend := by
  rintro (h | h) <;> exact absurd h (by decide)

theorem notWarn_appendOk : ¬ isWarnReason reasonAppendOk := by
  rintro (h | h) <;> exact absurd h (by decide)

theorem notWarn_noopPrepend : ¬ isWarnReason reasonNoopPrepend := by
  rintro (h | h) <;> exact absurd h (by decide)

theorem notWarn_docstringOk : ¬ isWarnReason reasonDocstringOk := by
  rintro (h | h) <;> exact absurd h (by decide)

theorem notWarn_commentOk : ¬ isWarnReason reasonCommentOk := by
  rintro (h | h) <;> exact absurd h (by decide)

theorem stepState_logs_shape (R : Resolver) (root : Target) (fs : FS)
    (e : Edit) :
    (∃ out : LogEntry, (stepState R root fs e).logs = [out] ∧
       out.file = displayFile e ∧ out.op = displayOp e ∧
       ¬ isWarnReason out.reason) ∨
    (∃ w out : LogEntry, (stepState R root fs e).logs = [w, out] ∧
       w.file = displayFile e ∧ w.op = displayOp e ∧
       out.file = displayFile e ∧ out.op = displayOp e ∧
       isWarnReason w.reason ∧ ¬ isWarnReason out.reason) := by
  unfold stepState execEdit
  dsimp only
  split
  · exact Or.inl ⟨_, rfl, rfl, rfl, notWarn_shape⟩
  · rename_i hshape
    rw [not_or] at hshape
    have hf : displayFile e = e.file := if_neg hshape.1
    have ho : displayOp e = e.op := if_neg hshape.2
    split
    · exact Or.inl ⟨_, rfl, hf.symm, ho.symm, notWarn_escape⟩
    · split
      · exact Or.inl ⟨_, rfl, hf.symm, ho.symm, notWarn_missing⟩
      · unfold finishEdit
        dsimp only
        split
        · split
          · split
            · exact Or.inr ⟨_, _, rfl, hf.symm, ho.symm, hf.symm, ho.symm,
                      warnReason_new, notWarn_noopOverwrite⟩
            · exact Or.inl ⟨_, rfl, hf.symm, ho.symm, notWarn_noopOverwrite⟩
          · split
            · exact Or.inr ⟨_, _, rfl, hf.symm, ho.symm, hf.symm, ho.symm,
                      warnReason_new, notWarn_overwriteOk⟩
            · exact Or.inl ⟨_, rfl, hf.symm, ho.symm, notWarn_overwriteOk⟩
        · split
          · split
            · split
              · exact Or.inr ⟨_, _, rfl, hf.symm, ho.symm, hf.symm, ho.symm,
                      warnReason_resulting, notWarn_noopAppend⟩
              · exact Or.inl ⟨_, rfl, hf.symm, ho.symm, notWarn_noopAppend⟩
            · split
              · exact Or.inr ⟨_, _, rfl, hf.symm, ho.symm, hf.symm, ho.symm,
                      warnReason_resulting, notWarn_appendOk⟩
              · exact Or.inl ⟨_, rfl, hf.symm, ho.symm, notWarn_appendOk⟩
          · split
            · split
              · split
                · split
                  · exact Or.inr ⟨_, _, rfl, hf.symm, ho.symm, hf.symm, ho.symm,
                      warnReason_resulting, notWarn_noopPrepend⟩
                  · exact Or.inl ⟨_, rfl, hf.symm, ho.symm, notWarn_noopPrepend⟩
                · split
                  · exact Or.inr ⟨_, _, rfl, hf.symm, ho.symm, hf.symm, ho.symm,
                      warnReason_resulting, notWarn_docstringOk⟩
                  · exact Or.inl ⟨_, rfl, hf.symm, ho.symm, notWarn_docstringOk⟩
              · split
                · split
                  · exact Or.inr ⟨_, _, rfl, hf.symm, ho.symm, hf.symm, ho.symm,
                      warnReason_resulting, notWarn_noopPrepend⟩
                  · exact Or.inl ⟨_, rfl, hf.symm, ho.symm, notWarn_noopPrepend⟩
                · split
                  · exact Or.inr ⟨_, _, rfl, hf.symm, ho.symm, hf.symm, ho.symm,
                      warnReason_resulting, notWarn_commentOk⟩
                  · exact Or.inl ⟨_, rfl, hf.symm, ho.symm, notWarn_commentOk⟩
            · exact Or.inl ⟨_, rfl, hf.symm, ho.symm,
                reasonUnknownOp_not_warn e.op⟩

theorem runDelta_touched_writes (R : Resolver) (root : Target)
    (edits : List Edit) : ∀ fs : FS,
    (runDelta R root fs edits).touched =
      ((runDelta R root fs edits).writes).map (relStr root) ∧
    ∀ w ∈ (runDelta R root fs edits).writes,
      root <+: w ∧ ∃ e ∈ edits, w = R e.file := by
  induction edits with
  | nil => intro fs; simp [runDelta]
  | cons e es ih =>
    intro fs
    have hstep := stepState_touched_writes R root fs e
    have hrest := ih (stepState R root fs e).fs
    constructor
    · simp only [runDelta, hstep.1, hrest.1, List.map_append]
    · intro w hw
      simp only [runDelta, List.mem_append] at hw
      rcases hw with hw | hw
      · rcases hstep.2 w hw with ⟨h1, h2⟩
        exact ⟨h1, e, by simp, h2⟩
      · rcases hrest.2 w hw with ⟨h1, e2, he2, h2⟩
        exact ⟨h1, e2, List.mem_cons_of_mem _ he2, h2⟩

theorem runDelta_logs_eq_flatten (R : Resolver) (root : Target)
    (edits : List Edit) : ∀ fs : FS,
    (runDelta R root fs edits).logs = (runGroups R root fs edits).flatten := by
  induction edits with
  | nil => intro fs; simp [runDelta, runGroups]
  | cons e es ih =>
    intro fs
    simp [runDelta, runGroups, ih]

theorem runGroups_length (R : Resolver) (root : Target) (edits : List Edit) :
    ∀ fs : FS, (runGroups R root fs edits).length = edits.length := by
  induction edits with
  | nil => intro fs; simp [runGroups]
  | cons e es ih => intro fs; simp [runGroups, ih]

theorem runGroups_zip_shape (R : Resolver) (root : Target) (edits : List Edit) :
    ∀ fs : FS, ∀ p ∈ (runGroups R root fs edits).zip edits,
    (∃ out : LogEntry, p.1 = [out] ∧
       out.file = displayFile p.2 ∧ out.op = displayOp p.2 ∧
       ¬ isWarnReason out.reason) ∨
    (∃ w out : LogEntry, p.1 = [w, out] ∧
       w.file = displayFile p.2 ∧ w.op = displayOp p.2 ∧
       out.file = displayFile p.2 ∧ out.op = displayOp p.2 ∧
       isWarnReason w.reason ∧ ¬ isWarnReason out.reason) := by
  induction edits with
  | nil => intro fs p hp; simp [runGroups] at hp
  | cons e es ih =>
    intro fs p hp
    simp only [runGroups, List.zip_cons_cons, List.mem_cons] at hp
    rcases hp with hp | hp
    · subst hp
      exact stepState_logs_shape R root fs e
    · exact ih (stepState R root fs e).fs p hp

theorem head_append_of_ne_nil (s t : PyStr) (h : s ≠ []) :
    (s ++ t).head? = s.head? := by
  cases s with
  | nil => exact absurd rfl h
  | cons c cs => rfl

theorem relStr_not_absolute (root w : Target) (hpre : root <+: w)
    (hseg : ∀ s ∈ w, s ≠ [] ∧ '/' ∉ s) :
    relStr root w ≠ [] ∧ (relStr root w).head? ≠ some '/' := by
  obtain ⟨rest, rfl⟩ := hpre
  unfold relStr
  dsimp only
  rw [List.drop_left]
  cases rest with
  | nil => constructor <;> decide
  | cons s more =>
    have hs := hseg s (by simp)
    have hshead : s.head? ≠ some '/' := by
      cases s with
      | nil => exact absurd rfl hs.1
      | cons c cs =>
        simp only [List.head?]
        intro hcontra
        apply hs.2
        rw [Option.some_inj] at hcontra
        simp [hcontra]
    cases more with
    | nil =>
      rw [if_neg (by simp)]
      have hflat : (List.intersperse (['/'] : PyStr) [s]).flatten = s := by
        simp [List.intersperse]
      rw [hflat]
      exact ⟨hs.1, hshead⟩
    | cons m ms =>
      have hinter : (List.intersperse (['/'] : PyStr) (s :: m :: ms)).flatten =
          s ++ '/' :: (List.intersperse ['/'] (m :: ms)).flatten := by
        simp [List.intersperse]
      rw [if_neg (by simp), hinter]
      constructor
      · intro hcontra
        have := congrArg List.length hcontra
        simp at this
      · rw [head_append_of_ne_nil s _ hs.1]
        exact hshead

/-- Claim C1: for every relative path whose canonical resolution (after
resolving `..` segments and symlinks) is not the jail root or a descendant of
it, the jail resolver returns `None`, the executor performs no filesystem
write for that edit (state other than the log is unchanged), the edit's log
entry has reason "target path escapes project jail", and the path never
appears in `touched_files`.  `hempty` and `hcanon` record two facts of
`Path.resolve`: resolving the empty relative path yields the root, and
resolving the jail-relative name of a canonically resolved in-jail path
yields that path back. -/
theorem C1_jail_escape_rejected (R : Resolver) (root : Target) (e : Edit)
    (hop : e.op ≠ [])
    (hesc : ¬ root <+: R e.file)
    (hempty : R [] = root)
    (hcanon : ∀ f : PyStr, root <+: R f → R (relStr root (R f)) = R f) :
    resolveInProjectJail R root e.file = none ∧
    (∀ st : ExecState, execEdit R root st e =
      { st with logs := st.logs ++ [⟨e.file, e.op, reasonEscape⟩] }) ∧
    (∀ fs edits, e.file ∉ (chadExecuteCodemod R root fs edits).touched) := by
  have hfile : e.file ≠ [] := by
    intro hcontra
    apply hesc
    rw [hcontra, hempty]
  refine ⟨?_, ?_, ?_⟩
  · unfold resolveInProjectJail
    dsimp only
    rw [if_neg hfile, if_neg hesc]
  · intro st
    unfold execEdit
    rw [if_neg (by rw [not_or]; exact ⟨hfile, hop⟩)]
    dsimp only
    rw [if_pos hesc]
  · intro fs edits hmem
    rw [chadExecuteCodemod_eq_runDelta] at hmem
    have h1 := (runDelta_touched_writes R root edits fs).1
    have h2 := (runDelta_touched_writes R root edits fs).2
    rw [h1] at hmem
    rcases List.mem_map.mp hmem with ⟨w, hw, heq⟩
    rcases h2 w hw with ⟨hpre, f, _, hwf⟩
    subst hwf
    have hRe : R e.file = R f.file := by
      rw [← heq]
      exact hcanon f.file hpre
    exact hesc (hRe ▸ hpre)

/-- Witness for C1 at a concrete escaping path: root `/r`, the path
`../../etc/passwd` resolving to `/etc` (not a descendant of the root), a
well-formed overwrite edit. -/
theorem C1_jail_escape_rejected_witness :
    resolveInProjectJail wRes1 [['r']] "../../etc/passwd".data = none ∧
    (∀ st : ExecState, execEdit wRes1 [['r']] st wEdit1 =
      { st with logs := st.logs ++
          [⟨"../../etc/passwd".data, opOverwrite, reasonEscape⟩] }) ∧
    (∀ fs edits,
      "../../etc/passwd".data ∉ (chadExecuteCodemod wRes1 [['r']] fs edits).touched) :=
  C1_jail_escape_rejected wRes1 [['r']] wEdit1 (by decide) (by decide) (by decide)
    (fun f hf => by
      by_cases h1 : f = "a.txt".data
      · subst h1
        decide
      · by_cases h2 : f = ['.'] ∨ f = []
        · simp only [wRes1, if_neg h1, if_pos h2] at hf ⊢
          decide
        · simp only [wRes1, if_neg h1, if_neg h2] at hf
          exact absurd hf (by decide))

/-- Claim C6: after every codemod run, `touched_files` holds exactly the
jail-relative names of the targets actually written (in order, with
multiplicity); every written target is inside the jail; and every entry is
relative — non-empty and not starting with `/`.  `hseg` states that canonical
resolution produces well-formed segments (non-empty, slash-free). -/
theorem C6_touched_files_exact (R : Resolver) (root : Target) (fs : FS)
    (edits : List Edit)
    (hseg : ∀ pth : PyStr, ∀ s ∈ R pth, s ≠ [] ∧ '/' ∉ s) :
    (chadExecuteCodemod R root fs edits).touched =
      ((chadExecuteCodemod R root fs edits).writes).map (relStr root) ∧
    (∀ w ∈ (chadExecuteCodemod R root fs edits).writes, root <+: w) ∧
    (∀ x ∈ (chadExecuteCodemod R root fs edits).touched,
      x ≠ [] ∧ x.head? ≠ some '/') := by
  rw [chadExecuteCodemod_eq_runDelta]
  have h1 := (runDelta_touched_writes R root edits fs).1
  have h2 := (runDelta_touched_writes R root edits fs).2
  refine ⟨h1, fun w hw => (h2 w hw).1, ?_⟩
  intro x hx
  rw [h1] at hx
  rcases List.mem_map.mp hx with ⟨w, hw, heq⟩
  rcases h2 w hw with ⟨hpre, f, _, hwf⟩
  subst heq
  exact relStr_not_absolute root w hpre (fun s hs => hseg f.file s (hwf ▸ hs))

/-- Witness for C6 on a concrete run: constant resolver into the jail, one
overwrite edit applied to an existing file. -/
theorem C6_touched_files_exact_witness :
    (chadExecuteCodemod (fun _ => [['r'], "a.txt".data]) [['r']]
      [([['r'], "a.txt".data], "old".data)]
      [⟨"a.txt".data, opOverwrite, "new".data⟩]).touched =
      ((chadExecuteCodemod (fun _ => [['r'], "a.txt".data]) [['r']]
        [([['r'], "a.txt".data], "old".data)]
        [⟨"a.txt".data, opOverwrite, "new".data⟩]).writes).map
          (relStr [['r']]) ∧
    (∀ w ∈ (chadExecuteCodemod (fun _ => [['r'], "a.txt".data]) [['r']]
      [([['r'], "a.txt".data], "old".data)]
      [⟨"a.txt".data, opOverwrite, "new".data⟩]).writes, [['r']] <+: w) ∧
    (∀ x ∈ (chadExecuteCodemod (fun _ => [['r'], "a.txt".data]) [['r']]
      [([['r'], "a.txt".data], "old".data)]
      [⟨"a.txt".data, opOverwrite, "new".data⟩]).touched,
      x ≠ [] ∧ x.head? ≠ some '/') :=
  C6_touched_files_exact _ _ _ _ (fun _ => by decide)

/-- Claim C7 counterexample: an overwrite edit whose content carries a
vertical tab produces two log entries (the control-character warning and the
outcome), so a one-edit batch does not log exactly one entry per edit. -/
theorem C7_counterexample_two_entries_for_one_edit :
    (chadExecuteCodemod (fun _ => [['r'], "a.txt".data]) [['r']]
      [([['r'], "a.txt".data], "old".data)]
      [⟨"a.txt".data, opOverwrite, ['x', Char.ofNat 11]⟩]).logs.length = 2 ∧
    ¬ ((chadExecuteCodemod (fun _ => [['r'], "a.txt".data]) [['r']]
      [([['r'], "a.txt".data], "old".data)]
      [⟨"a.txt".data, opOverwrite, ['x', Char.ofNat 11]⟩]).logs.length =
        ([⟨"a.txt".data, opOverwrite, ['x', Char.ofNat 11]⟩] : List Edit).length) := by
  constructor
  · decide
  · decide

/-- Claim C7 amended: the executor appends, per edit attempt and in input
order, exactly one outcome entry — the entry groups partition `edit_logs` in
edit order — but an edit whose processed content contained suspicious control
characters gets one warning entry immediately before its outcome entry, so a
group has one or two entries, never more. -/
theorem C7_amended_one_outcome_entry_per_edit (R : Resolver) (root : Target)
    (fs : FS) (edits : List Edit) :
    ∃ gs : List (List LogEntry),
      (chadExecuteCodemod R root fs edits).logs = gs.flatten ∧
      gs.length = edits.length ∧
      ∀ p ∈ gs.zip edits,
        (∃ out : LogEntry, p.1 = [out] ∧
           out.file = displayFile p.2 ∧ out.op = displayOp p.2 ∧
           ¬ isWarnReason out.reason) ∨
        (∃ w out : LogEntry, p.1 = [w, out] ∧
           w.file = displayFile p.2 ∧ w.op = displayOp p.2 ∧
           out.file = displayFile p.2 ∧ out.op = displayOp p.2 ∧
           isWarnReason w.reason ∧ ¬ isWarnReason out.reason) := by
  refine ⟨runGroups R root fs edits, ?_, runGroups_length R root edits fs,
    runGroups_zip_shape R root edits fs⟩
  rw [chadExecuteCodemod_eq_runDelta]
  exact runDelta_logs_eq_flatten R root edits fs

/-- Claim C8 counterexample: the claim predicts the reason
"unknown operation '<op>'" for every edit with an unknown operation, but the
existence check precedes the operation dispatch, so the scenario edit
`{file: "a.txt", operation: "delete_file", content: ""}` run when `a.txt`
does not exist on disk logs "target file does not exist on disk" instead —
even though `delete_file` is none of the three known operations. -/
theorem C8_counterexample_missing_target_reason :
    (chadExecuteCodemod (fun _ => [['r'], "a.txt".data]) [['r']] []
      [⟨"a.txt".data, "delete_file".data, []⟩]).logs =
      [⟨"a.txt".data, "delete_file".data, reasonMissingFile⟩] ∧
    reasonMissingFile ≠ reasonUnknownOp "delete_file".data ∧
    "delete_file".data ≠ opOverwrite ∧ "delete_file".data ≠ opAppend ∧
    "delete_file".data ≠ opPrepend := by
  exact ⟨by decide, by decide, by decide, by decide, by decide⟩

/-- Claim C8, amended: an edit whose operation is none of the three known
operations, aimed at an in-jail target that exists on disk, performs no write
and logs "unknown operation '<op>'" with the operation interpolated the way
CPython `repr` renders it; an unknown-operation edit whose target escapes the
jail or is missing instead logs the escape or missing-file reason (and still
performs no write). -/
theorem C8_amended_unknown_op_logged (R : Resolver) (root : Target)
    (st : ExecState) (e : Edit) (raw : PyStr)
    (hfile : e.file ≠ []) (hop : e.op ≠ [])
    (hjail : root <+: R e.file)
    (hread : fsRead st.fs (R e.file) = some raw)
    (h1 : e.op ≠ opOverwrite) (h2 : e.op ≠ opAppend) (h3 : e.op ≠ opPrepend) :
    execEdit R root st e =
      { st with logs := st.logs ++ [⟨e.file, e.op, reasonUnknownOp e.op⟩] } := by
  unfold execEdit
  rw [if_neg (by rw [not_or]; exact ⟨hfile, hop⟩)]
  dsimp only
  rw [if_neg (not_not.mpr hjail), hread]
  dsimp only
  rw [if_neg h1, if_neg h2, if_neg h3]

/-- Witness for amended C8 at the scenario input `{file: "a.txt", operation:
"delete_file", content: ""}` with `a.txt` existing in the jail; the reason is
the literal string `unknown operation 'delete_file'`, and the `repr` model
switches to double quotes for an operation containing a single quote. -/
theorem C8_amended_unknown_op_logged_witness :
    (execEdit (fun _ => [['r'], "a.txt".data]) [['r']]
      ⟨[([['r'], "a.txt".data], "old".data)], [], [], []⟩
      ⟨"a.txt".data, "delete_file".data, []⟩ =
      { fs := [([['r'], "a.txt".data], "old".data)], touched := [], writes := [],
        logs := [] ++ [⟨"a.txt".data, "delete_file".data,
          reasonUnknownOp "delete_file".data⟩] }) ∧
    reasonUnknownOp "delete_file".data =
      "unknown operation \x27delete_file\x27".data ∧
    reasonUnknownOp "don\x27t".data =
      "unknown operation \x22don\x27t\x22".data :=
  ⟨C8_amended_unknown_op_logged _ _ _ _ "old".data (by decide) (by decide)
    (by decide) (by decide) (by decide) (by decide) (by decide),
   by decide, by decide⟩

/-- Claim C2 counterexample: the spec scenario `{file: "a.txt", operation:
"create_or_overwrite_file", content: "hello\n"}` on a jail with no existing
`a.txt` creates nothing — `touched_files` stays empty, no file appears, and
the log reason is "target file does not exist on disk", not
"file overwritten with new content". -/
theorem C2_counterexample_missing_target_not_created :
    (chadExecuteCodemod (fun _ => [['r'], "a.txt".data]) [['r']] []
      [⟨"a.txt".data, opOverwrite, "hello\n".data⟩]).touched = [] ∧
    fsRead (chadExecuteCodemod (fun _ => [['r'], "a.txt".data]) [['r']] []
      [⟨"a.txt".data, opOverwrite, "hello\n".data⟩]).fs
      [['r'], "a.txt".data] = none ∧
    (chadExecuteCodemod (fun _ => [['r'], "a.txt".data]) [['r']] []
      [⟨"a.txt".data, opOverwrite, "hello\n".data⟩]).logs =
      [⟨"a.txt".data, opOverwrite, reasonMissingFile⟩] ∧
    ¬ ((chadExecuteCodemod (fun _ => [['r'], "a.txt".data]) [['r']] []
      [⟨"a.txt".data, opOverwrite, "hello\n".data⟩]).touched =
        ["a.txt".data]) := by
  refine ⟨?_, ?_, ?_, ?_⟩ <;> decide

/-- Claim C2 amended: a `create_or_overwrite_file` edit whose in-jail target
does not exist on disk is skipped — nothing is written or created, nothing is
added to `touched_files`, and the edit's log reason is
"target file does not exist on disk". -/
theorem C2_amended_missing_target_skipped (R : Resolver) (root : Target)
    (st : ExecState) (e : Edit)
    (hfile : e.file ≠ []) (hop : e.op = opOverwrite)
    (hjail : root <+: R e.file)
    (hmiss : fsRead st.fs (R e.file) = none) :
    execEdit R root st e =
      { st with logs := st.logs ++ [⟨e.file, e.op, reasonMissingFile⟩] } := by
  unfold execEdit
  rw [if_neg (by rw [not_or]; exact ⟨hfile, by rw [hop]; decide⟩)]
  dsimp only
  rw [if_neg (not_not.mpr hjail), hmiss]

/-- Witness for the amended C2 at the scenario input. -/
theorem C2_amended_missing_target_skipped_witness :
    execEdit (fun _ => [['r'], "a.txt".data]) [['r']] ⟨[], [], [], []⟩
      ⟨"a.txt".data, opOverwrite, "hello\n".data⟩ =
      { fs := [], touched := [], writes := [],
        logs := [] ++ [⟨"a.txt".data, opOverwrite, reasonMissingFile⟩] } :=
  C2_amended_missing_target_skipped _ _ _ _ (by decide) rfl (by decide)
    (by decide)

theorem strip_no_cr (t : PyStr) (h : '\r' ∉ t) :
    '\r' ∉ stripSuspiciousControlChars t :=
  fun hc => h (List.mem_of_mem_filter hc)

theorem suspProcess_no_cr (x : PyStr) : '\r' ∉ (suspProcess x).2 := by
  unfold suspProcess
  dsimp only
  split
  · exact strip_no_cr _ (normalizeNewlines_no_cr x)
  · exact normalizeNewlines_no_cr x

theorem restoreLine_self (a : PyStr) : restoreLine a a = a := by
  unfold restoreLine
  rw [if_neg (fun h => h.2 h.1), if_neg (fun h => h.2 h.1)]

theorem restoreLine_cases (a b : PyStr) :
    restoreLine a b = a ∨ restoreLine a b = b := by
  unfold restoreLine
  split
  · exact Or.inl rfl
  · split
    · exact Or.inl rfl
    · exact Or.inr rfl

theorem restoreLine_idem (a b : PyStr) :
    restoreLine (restoreLine a b) b = restoreLine a b := by
  by_cases h1 : poundSign ∈ a ∧ poundSign ∉ b
  · have hin : restoreLine a b = a := by rw [restoreLine, if_pos h1]
    rw [hin]
    exact hin
  · by_cases h2 : (∃ c ∈ a, 127 < c.toNat) ∧ ¬ ∃ c ∈ b, 127 < c.toNat
    · have hin : restoreLine a b = a := by
        rw [restoreLine, if_neg h1, if_pos h2]
      rw [hin]
      exact hin
    · have hin : restoreLine a b = b := by
        rw [restoreLine, if_neg h1, if_neg h2]
      rw [hin]
      exact restoreLine_self b

theorem restoreLine_restores (a b : PyStr) (hu : ∃ c ∈ a, 127 < c.toNat)
    (hn : ¬ ∃ c ∈ b, 127 < c.toNat) : restoreLine a b = a := by
  unfold restoreLine
  by_cases h1 : poundSign ∈ a ∧ poundSign ∉ b
  · rw [if_pos h1]
  · rw [if_neg h1, if_pos ⟨hu, hn⟩]

theorem restoreAll_nil_left (ns : List PyStr) : restoreAll [] ns = ns := by
  simp [restoreAll]

theorem restoreAll_nil_right (os : List PyStr) : restoreAll os [] = [] := by
  simp [restoreAll]

theorem restoreAll_cons (o : PyStr) (os : List PyStr) (n : PyStr)
    (ns : List PyStr) :
    restoreAll (o :: os) (n :: ns) = restoreLine o n :: restoreAll os ns := by
  simp [restoreAll]

theorem restoreAll_self (l : List PyStr) : restoreAll l l = l := by
  induction l with
  | nil => rfl
  | cons x xs ih => rw [restoreAll_cons, restoreLine_self, ih]

theorem restoreAll_idem (os : List PyStr) : ∀ ns : List PyStr,
    restoreAll (restoreAll os ns) ns = restoreAll os ns := by
  induction os with
  | nil => intro ns; rw [restoreAll_nil_left]; exact restoreAll_self ns
  | cons o os ih =>
    intro ns
    cases ns with
    | nil => rw [restoreAll_nil_right, restoreAll_nil_right]
    | cons n ns =>
      rw [restoreAll_cons, restoreAll_cons, restoreLine_idem, ih]

theorem restoreAll_length (os : List PyStr) : ∀ ns : List PyStr,
    (restoreAll os ns).length = ns.length := by
  induction os with
  | nil => intro ns; rw [restoreAll_nil_left]
  | cons o os ih =>
    intro ns
    cases ns with
    | nil => rw [restoreAll_nil_right]
    | cons n ns => rw [restoreAll_cons]; simp [ih]

theorem restoreAll_mem (os : List PyStr) : ∀ ns : List PyStr,
    ∀ x ∈ restoreAll os ns, x ∈ os ∨ x ∈ ns := by
  induction os with
  | nil => intro ns x hx; rw [restoreAll_nil_left] at hx; exact Or.inr hx
  | cons o os ih =>
    intro ns x hx
    cases ns with
    | nil => rw [restoreAll_nil_right] at hx; simp at hx
    | cons n ns =>
      rw [restoreAll_cons] at hx
      rcases List.mem_cons.mp hx with h | h
      · rcases restoreLine_cases o n with hc | hc
        · exact Or.inl (by rw [h, hc]; simp)
        · exact Or.inr (by rw [h, hc]; simp)
      · rcases ih ns x h with h2 | h2
        · exact Or.inl (List.mem_cons_of_mem _ h2)
        · exact Or.inr (List.mem_cons_of_mem _ h2)

theorem restoreAll_getElem (os : List PyStr) : ∀ (ns : List PyStr) (i : Nat)
    (o n : PyStr), os[i]? = some o → ns[i]? = some n →
    (restoreAll os ns)[i]? = some (restoreLine o n) := by
  induction os with
  | nil => intro ns i o n ho hn; simp at ho
  | cons x xs ih =>
    intro ns i o n ho hn
    cases ns with
    | nil => simp at hn
    | cons y ys =>
      rw [restoreAll_cons]
      cases i with
      | zero =>
        simp only [List.getElem?_cons_zero, Option.some_inj] at ho hn ⊢
        rw [ho, hn]
      | succ j =>
        simp only [List.getElem?_cons_succ] at ho hn ⊢
        exact ih ys j o n ho hn

theorem joinNL_mem (ls : List PyStr) (c : Char) (hc : c ∈ joinNL ls) :
    c = '\n' ∨ ∃ l ∈ ls, c ∈ l := by
  induction ls with
  | nil => simp [joinNL] at hc
  | cons l ls ih =>
    cases ls with
    | nil =>
      rw [joinNL_single] at hc
      exact Or.inr ⟨l, by simp, hc⟩
    | cons m ms =>
      rw [joinNL_cons_cons] at hc
      rcases List.mem_append.mp hc with h | h
      · exact Or.inr ⟨l, by simp, h⟩
      · rcases List.mem_cons.mp h with h2 | h2
        · exact Or.inl h2
        · rcases ih h2 with h3 | ⟨x, hx, hcx⟩
          · exact Or.inl h3
          · exact Or.inr ⟨x, List.mem_cons_of_mem _ hx, hcx⟩

theorem pyGuard_no_cr (o n : PyStr) (ho : '\r' ∉ o) (hn : '\r' ∉ n) :
    '\r' ∉ pyGuard o n := by
  intro hc
  unfold pyGuard at hc
  dsimp only at hc
  rcases joinNL_mem _ _ hc with h | ⟨l, hl, hcl⟩
  · exact absurd h (by decide)
  · rcases restoreAll_mem _ _ l hl with h2 | h2
    · exact ho (splitOnNL_subset o l h2 _ hcl)
    · have hjoin : ∀ x ∈ joinNL ((splitOnNL n).filter
          (fun s => decide (¬ narrationMarker <:+: s))), x ∈ n ∨ x = '\n' := by
        intro x hx
        rcases joinNL_mem _ _ hx with h3 | ⟨m, hm, hxm⟩
        · exact Or.inr h3
        · exact Or.inl (splitOnNL_subset n m (List.mem_of_mem_filter hm) _ hxm)
      have := splitOnNL_subset _ l h2 _ hcl
      rcases hjoin _ this with h4 | h4
      · exact hn h4
      · exact absurd h4 (by decide)

theorem pyGuard_lines (o n : PyStr) :
    ∀ l ∈ restoreAll (splitOnNL o)
      (splitOnNL (joinNL ((splitOnNL n).filter
        (fun s => decide (¬ narrationMarker <:+: s))))), '\n' ∉ l := by
  intro l hl
  rcases restoreAll_mem _ _ l hl with h | h
  · exact splitOnNL_no_nl o l h
  · exact splitOnNL_no_nl _ l h

theorem pyGuard_idem (o n : PyStr) : pyGuard (pyGuard o n) n = pyGuard o n := by
  unfold pyGuard
  dsimp only
  have hne : restoreAll (splitOnNL o)
      (splitOnNL (joinNL ((splitOnNL n).filter
        (fun s => decide (¬ narrationMarker <:+: s))))) ≠ [] := by
    intro hcontra
    have := restoreAll_length (splitOnNL o)
      (splitOnNL (joinNL ((splitOnNL n).filter
        (fun s => decide (¬ narrationMarker <:+: s)))))
    rw [hcontra] at this
    exact splitOnNL_ne_nil _ (List.length_eq_zero.mp this.symm)
  rw [splitOnNL_joinNL _ hne (pyGuard_lines o n), restoreAll_idem]

theorem finishEdit_noop (root target : Target) (e : Edit) (st : ExecState)
    (original : PyStr) (susp : Bool) (warnReason newText noopReason okReason : PyStr)
    (h : normalizeNewlines original = newText) :
    finishEdit root target e st original susp warnReason newText noopReason okReason =
      { st with logs := st.logs ++
          (if susp then [⟨e.file, e.op, warnReason⟩] else []) ++
          [⟨e.file, e.op, noopReason⟩] } := by
  unfold finishEdit
  cases susp <;> simp [h]

theorem finishEdit_write (root target : Target) (e : Edit) (st : ExecState)
    (original : PyStr) (susp : Bool) (warnReason newText noopReason okReason : PyStr)
    (h : normalizeNewlines original ≠ newText) :
    finishEdit root target e st original susp warnReason newText noopReason okReason =
      { fs := fsWrite st.fs target (normalizeNewlines newText),
        touched := st.touched ++ [relStr root target],
        writes := st.writes ++ [target],
        logs := st.logs ++
          (if susp then [⟨e.file, e.op, warnReason⟩] else []) ++
          [⟨e.file, e.op, okReason⟩] } := by
  unfold finishEdit
  cases susp <;> simp [h]

theorem execEdit_overwrite (R : Resolver) (root : Target) (st : ExecState)
    (e : Edit) (raw : PyStr)
    (hfile : e.file ≠ []) (hop : e.op = opOverwrite)
    (hjail : root <+: R e.file)
    (hread : fsRead st.fs (R e.file) = some raw) :
    execEdit R root st e =
      finishEdit root (R e.file) e st (normalizeNewlines raw)
        (overwriteNewText (decide (targetExt (R e.file) = ".py".data))
          (normalizeNewlines raw) e.content).1 reasonWarnNew
        (overwriteNewText (decide (targetExt (R e.file) = ".py".data))
          (normalizeNewlines raw) e.content).2
        reasonNoopOverwrite reasonOverwriteOk := by
  unfold execEdit
  rw [if_neg (by rw [not_or]; exact ⟨hfile, by rw [hop]; decide⟩)]
  dsimp only
  rw [if_neg (not_not.mpr hjail), hread]
  dsimp only
  rw [if_pos hop]

theorem overwriteNewText_fst (isPy : Bool) (o c : PyStr) :
    (overwriteNewText isPy o c).1 = (suspProcess c).1 := rfl

theorem overwriteNewText_no_cr (isPy : Bool) (o c : PyStr) (ho : '\r' ∉ o) :
    '\r' ∉ (overwriteNewText isPy o c).2 := by
  unfold overwriteNewText
  dsimp only
  cases isPy with
  | false => simpa using suspProcess_no_cr c
  | true => simpa using pyGuard_no_cr o _ ho (suspProcess_no_cr c)

theorem overwriteNewText_stable (isPy : Bool) (o c : PyStr) :
    (overwriteNewText isPy (overwriteNewText isPy o c).2 c).2 =
      (overwriteNewText isPy o c).2 := by
  unfold overwriteNewText
  dsimp only
  cases isPy with
  | false => rfl
  | true => simpa using pyGuard_idem o (suspProcess c).2

/-- Claim C4 counterexample: the same `append_to_bottom` edit applied twice to
the same existing in-jail file is NOT a no-op the second time — the content is
appended again, the file grows, the path enters `touched_files` twice, and the
second log entry reads "content appended to bottom of file", not a no-op. -/
theorem C4_counterexample_append_reapplies :
    (execEdit (fun _ => [['r'], "a.txt".data]) [['r']]
      (execEdit (fun _ => [['r'], "a.txt".data]) [['r']]
        ⟨[([['r'], "a.txt".data], ['a', '\n'])], [], [], []⟩
        ⟨"a.txt".data, opAppend, ['b']⟩)
      ⟨"a.txt".data, opAppend, ['b']⟩).touched =
      ["a.txt".data, "a.txt".data] ∧
    fsRead (execEdit (fun _ => [['r'], "a.txt".data]) [['r']]
      (execEdit (fun _ => [['r'], "a.txt".data]) [['r']]
        ⟨[([['r'], "a.txt".data], ['a', '\n'])], [], [], []⟩
        ⟨"a.txt".data, opAppend, ['b']⟩)
      ⟨"a.txt".data, opAppend, ['b']⟩).fs [['r'], "a.txt".data] =
      some "a\n\nb\n\nb\n".data ∧
    (execEdit (fun _ => [['r'], "a.txt".data]) [['r']]
      (execEdit (fun _ => [['r'], "a.txt".data]) [['r']]
        ⟨[([['r'], "a.txt".data], ['a', '\n'])], [], [], []⟩
        ⟨"a.txt".data, opAppend, ['b']⟩)
      ⟨"a.txt".data, opAppend, ['b']⟩).logs =
      [⟨"a.txt".data, opAppend, reasonAppendOk⟩,
       ⟨"a.txt".data, opAppend, reasonAppendOk⟩] := by
  refine ⟨?_, ?_, ?_⟩ <;> decide

/-- Claim C4 amended: restricted to `create_or_overwrite_file`, double
application is idempotent — if the first application writes, the file's
jail-relative path is appended to `touched_files`, and the second application
of the byte-identical edit performs no write, adds nothing to
`touched_files`, and logs "new content is identical to existing file"
(preceded by the control-character warning when one applies).  For
`append_to_bottom` the code re-appends instead (see the counterexample). -/
theorem C4_amended_overwrite_idempotent (R : Resolver) (root : Target)
    (st : ExecState) (e : Edit) (raw : PyStr)
    (hfile : e.file ≠ []) (hop : e.op = opOverwrite)
    (hjail : root <+: R e.file)
    (hread : fsRead st.fs (R e.file) = some raw) :
    ((execEdit R root st e).writes ≠ st.writes →
      (execEdit R root st e).touched = st.touched ++ [relStr root (R e.file)]) ∧
    (execEdit R root (execEdit R root st e) e).fs = (execEdit R root st e).fs ∧
    (execEdit R root (execEdit R root st e) e).touched =
      (execEdit R root st e).touched ∧
    (execEdit R root (execEdit R root st e) e).writes =
      (execEdit R root st e).writes ∧
    ∃ pre : List LogEntry,
      (pre = [] ∨ pre = [⟨e.file, e.op, reasonWarnNew⟩]) ∧
      (execEdit R root (execEdit R root st e) e).logs =
        (execEdit R root st e).logs ++ pre ++
          [⟨e.file, e.op, reasonNoopOverwrite⟩] := by
  have h1 := execEdit_overwrite R root st e raw hfile hop hjail hread
  by_cases hno : normalizeNewlines (normalizeNewlines raw) =
      (overwriteNewText (decide (targetExt (R e.file) = ".py".data))
        (normalizeNewlines raw) e.content).2
  · have hfin := finishEdit_noop root (R e.file) e st (normalizeNewlines raw)
      (overwriteNewText (decide (targetExt (R e.file) = ".py".data))
        (normalizeNewlines raw) e.content).1 reasonWarnNew
      (overwriteNewText (decide (targetExt (R e.file) = ".py".data))
        (normalizeNewlines raw) e.content).2
      reasonNoopOverwrite reasonOverwriteOk hno
    have hst1 : execEdit R root st e =
        { st with logs := st.logs ++
            (if (overwriteNewText (decide (targetExt (R e.file) = ".py".data))
              (normalizeNewlines raw) e.content).1 = true then
              [⟨e.file, e.op, reasonWarnNew⟩] else []) ++
            [⟨e.file, e.op, reasonNoopOverwrite⟩] } := by
      rw [h1, hfin]
    have hread1 : fsRead (execEdit R root st e).fs (R e.file) = some raw := by
      rw [hst1]
      exact hread
    have h2 := execEdit_overwrite R root (execEdit R root st e) e raw hfile hop
      hjail hread1
    have hfin2 := finishEdit_noop root (R e.file) e (execEdit R root st e)
      (normalizeNewlines raw)
      (overwriteNewText (decide (targetExt (R e.file) = ".py".data))
        (normalizeNewlines raw) e.content).1 reasonWarnNew
      (overwriteNewText (decide (targetExt (R e.file) = ".py".data))
        (normalizeNewlines raw) e.content).2
      reasonNoopOverwrite reasonOverwriteOk hno
    refine ⟨?_, ?_, ?_, ?_, ?_⟩
    · intro hw
      exact absurd (by rw [hst1]) hw
    · rw [h2, hfin2]
    · rw [h2, hfin2]
    · rw [h2, hfin2]
    · refine ⟨if (overwriteNewText (decide (targetExt (R e.file) = ".py".data))
          (normalizeNewlines raw) e.content).1 = true then
          [⟨e.file, e.op, reasonWarnNew⟩] else [], ?_, ?_⟩
      · split
        · exact Or.inr rfl
        · exact Or.inl rfl
      · rw [h2, hfin2]
  · have hfin := finishEdit_write root (R e.file) e st (normalizeNewlines raw)
      (overwriteNewText (decide (targetExt (R e.file) = ".py".data))
        (normalizeNewlines raw) e.content).1 reasonWarnNew
      (overwriteNewText (decide (targetExt (R e.file) = ".py".data))
        (normalizeNewlines raw) e.content).2
      reasonNoopOverwrite reasonOverwriteOk hno
    have horigcr : '\r' ∉ normalizeNewlines raw := normalizeNewlines_no_cr raw
    have hnewcr : '\r' ∉ (overwriteNewText
        (decide (targetExt (R e.file) = ".py".data))
        (normalizeNewlines raw) e.content).2 :=
      overwriteNewText_no_cr _ _ _ horigcr
    have hstored : normalizeNewlines (overwriteNewText
        (decide (targetExt (R e.file) = ".py".data))
        (normalizeNewlines raw) e.content).2 =
        (overwriteNewText (decide (targetExt (R e.file) = ".py".data))
          (normalizeNewlines raw) e.content).2 :=
      normalizeNewlines_eq_self _ hnewcr
    have hread1 : fsRead (execEdit R root st e).fs (R e.file) =
        some (overwriteNewText (decide (targetExt (R e.file) = ".py".data))
          (normalizeNewlines raw) e.content).2 := by
      rw [h1, hfin]
      dsimp only
      rw [hstored]
      exact fsRead_fsWrite_self _ _ _
    have h2 := execEdit_overwrite R root (execEdit R root st e) e
      (overwriteNewText (decide (targetExt (R e.file) = ".py".data))
        (normalizeNewlines raw) e.content).2 hfile hop hjail hread1
    have hno2 : normalizeNewlines (normalizeNewlines
        (overwriteNewText (decide (targetExt (R e.file) = ".py".data))
          (normalizeNewlines raw) e.content).2) =
        (overwriteNewText (decide (targetExt (R e.file) = ".py".data))
          (normalizeNewlines
            (overwriteNewText (decide (targetExt (R e.file) = ".py".data))
              (normalizeNewlines raw) e.content).2) e.content).2 := by
      rw [hstored, hstored, overwriteNewText_stable]
    have hfin2 := finishEdit_noop root (R e.file) e (execEdit R root st e)
      (normalizeNewlines (overwriteNewText
        (decide (targetExt (R e.file) = ".py".data))
        (normalizeNewlines raw) e.content).2)
      (overwriteNewText (decide (targetExt (R e.file) = ".py".data))
        (normalizeNewlines
          (overwriteNewText (decide (targetExt (R e.file) = ".py".data))
            (normalizeNewlines raw) e.content).2) e.content).1 reasonWarnNew
      (overwriteNewText (decide (targetExt (R e.file) = ".py".data))
        (normalizeNewlines
          (overwriteNewText (decide (targetExt (R e.file) = ".py".data))
            (normalizeNewlines raw) e.content).2) e.content).2
      reasonNoopOverwrite reasonOverwriteOk hno2
    refine ⟨?_, ?_, ?_, ?_, ?_⟩
    · intro hw
      rw [h1, hfin]
    · rw [h2, hfin2]
    · rw [h2, hfin2]
    · rw [h2, hfin2]
    · refine ⟨if (overwriteNewText (decide (targetExt (R e.file) = ".py".data))
          (normalizeNewlines
            (overwriteNewText (decide (targetExt (R e.file) = ".py".data))
              (normalizeNewlines raw) e.content).2) e.content).1 = true then
          [⟨e.file, e.op, reasonWarnNew⟩] else [], ?_, ?_⟩
      · split
        · exact Or.inr rfl
        · exact Or.inl rfl
      · rw [h2, hfin2]

/-- Witness for the amended C4 at a concrete double overwrite. -/
theorem C4_amended_overwrite_idempotent_witness :
    ((execEdit wRes2 [['r']] wSt2 wEditOw).writes ≠ wSt2.writes →
      (execEdit wRes2 [['r']] wSt2 wEditOw).touched =
        wSt2.touched ++ [relStr [['r']] (wRes2 wEditOw.file)]) ∧
    (execEdit wRes2 [['r']] (execEdit wRes2 [['r']] wSt2 wEditOw) wEditOw).fs =
      (execEdit wRes2 [['r']] wSt2 wEditOw).fs ∧
    (execEdit wRes2 [['r']] (execEdit wRes2 [['r']] wSt2 wEditOw) wEditOw).touched =
      (execEdit wRes2 [['r']] wSt2 wEditOw).touched ∧
    (execEdit wRes2 [['r']] (execEdit wRes2 [['r']] wSt2 wEditOw) wEditOw).writes =
      (execEdit wRes2 [['r']] wSt2 wEditOw).writes ∧
    ∃ pre : List LogEntry,
      (pre = [] ∨ pre = [⟨wEditOw.file, wEditOw.op, reasonWarnNew⟩]) ∧
      (execEdit wRes2 [['r']] (execEdit wRes2 [['r']] wSt2 wEditOw) wEditOw).logs =
        (execEdit wRes2 [['r']] wSt2 wEditOw).logs ++ pre ++
          [⟨wEditOw.file, wEditOw.op, reasonNoopOverwrite⟩] :=
  C4_amended_overwrite_idempotent wRes2 [['r']] wSt2 wEditOw "old".data
    (by decide) rfl (by decide) (by decide)

/-- Claim C3: for a `create_or_overwrite_file` edit on an existing in-jail
`.py` target (CR-free on disk, replacement content free of suspicious control
characters and narration lines so that line indices align), at every line
index within both line counts where the original line contains a character
above code point 127 and the replacement line contains none, the file content
after the edit has the original line verbatim at that index. -/
theorem C3_unicode_restored (R : Resolver) (root : Target) (st : ExecState)
    (e : Edit) (raw : PyStr) (idx : Nat) (ol nl : PyStr)
    (hfile : e.file ≠ []) (hop : e.op = opOverwrite)
    (hjail : root <+: R e.file)
    (hread : fsRead st.fs (R e.file) = some raw)
    (hpy : targetExt (R e.file) = ".py".data)
    (hncr : '\r' ∉ raw)
    (hnosusp : containsSuspiciousControlChars (normalizeNewlines e.content) = false)
    (hnonarr : ∀ l ∈ splitOnNL (normalizeNewlines e.content),
      ¬ narrationMarker <:+: l)
    (hol : (splitOnNL raw)[idx]? = some ol)
    (hnl : (splitOnNL (normalizeNewlines e.content))[idx]? = some nl)
    (hu : ∃ c ∈ ol, 127 < c.toNat)
    (hnu : ¬ ∃ c ∈ nl, 127 < c.toNat) :
    ∃ final, fsRead (execEdit R root st e).fs (R e.file) = some final ∧
      (splitOnNL final)[idx]? = some ol := by
  have h1 := execEdit_overwrite R root st e raw hfile hop hjail hread
  have hraw : normalizeNewlines raw = raw := normalizeNewlines_eq_self raw hncr
  have hsp2 : (suspProcess e.content).2 = normalizeNewlines e.content := by
    unfold suspProcess
    dsimp only
    rw [if_neg (by rw [hnosusp]; exact Bool.false_ne_true)]
  have hnt : (overwriteNewText (decide (targetExt (R e.file) = ".py".data))
      (normalizeNewlines raw) e.content).2 =
      pyGuard raw (normalizeNewlines e.content) := by
    unfold overwriteNewText
    dsimp only
    rw [if_pos (by rw [decide_eq_true_eq]; exact hpy), hsp2, hraw]
  have hfilter : (splitOnNL (normalizeNewlines e.content)).filter
      (fun s => decide (¬ narrationMarker <:+: s)) =
      splitOnNL (normalizeNewlines e.content) :=
    List.filter_eq_self.mpr (fun l hl => decide_eq_true (hnonarr l hl))
  have hguard : pyGuard raw (normalizeNewlines e.content) =
      joinNL (restoreAll (splitOnNL raw)
        (splitOnNL (normalizeNewlines e.content))) := by
    unfold pyGuard
    dsimp only
    rw [hfilter, joinNL_splitOnNL]
  have hG : (restoreAll (splitOnNL raw)
      (splitOnNL (normalizeNewlines e.content)))[idx]? =
      some (restoreLine ol nl) :=
    restoreAll_getElem _ _ idx ol nl hol hnl
  have hres : restoreLine ol nl = ol := restoreLine_restores ol nl hu hnu
  by_cases hno : normalizeNewlines (normalizeNewlines raw) =
      (overwriteNewText (decide (targetExt (R e.file) = ".py".data))
        (normalizeNewlines raw) e.content).2
  · have hfin := finishEdit_noop root (R e.file) e st (normalizeNewlines raw)
      (overwriteNewText (decide (targetExt (R e.file) = ".py".data))
        (normalizeNewlines raw) e.content).1 reasonWarnNew
      (overwriteNewText (decide (targetExt (R e.file) = ".py".data))
        (normalizeNewlines raw) e.content).2
      reasonNoopOverwrite reasonOverwriteOk hno
    refine ⟨raw, ?_, hol⟩
    rw [h1, hfin]
    exact hread
  · have hfin := finishEdit_write root (R e.file) e st (normalizeNewlines raw)
      (overwriteNewText (decide (targetExt (R e.file) = ".py".data))
        (normalizeNewlines raw) e.content).1 reasonWarnNew
      (overwriteNewText (decide (targetExt (R e.file) = ".py".data))
        (normalizeNewlines raw) e.content).2
      reasonNoopOverwrite reasonOverwriteOk hno
    have hnewcr : '\r' ∉ (overwriteNewText
        (decide (targetExt (R e.file) = ".py".data))
        (normalizeNewlines raw) e.content).2 :=
      overwriteNewText_no_cr _ _ _ (normalizeNewlines_no_cr raw)
    have hstored : normalizeNewlines (overwriteNewText
        (decide (targetExt (R e.file) = ".py".data))
        (normalizeNewlines raw) e.content).2 =
        (overwriteNewText (decide (targetExt (R e.file) = ".py".data))
          (normalizeNewlines raw) e.content).2 :=
      normalizeNewlines_eq_self _ hnewcr
    refine ⟨(overwriteNewText (decide (targetExt (R e.file) = ".py".data))
      (normalizeNewlines raw) e.content).2, ?_, ?_⟩
    · rw [h1, hfin]
      dsimp only
      rw [hstored]
      exact fsRead_fsWrite_self _ _ _
    · rw [hnt, hguard]
      have hne : restoreAll (splitOnNL raw)
          (splitOnNL (normalizeNewlines e.content)) ≠ [] := by
        intro hcontra
        have hlen := restoreAll_length (splitOnNL raw)
          (splitOnNL (normalizeNewlines e.content))
        rw [hcontra] at hlen
        exact splitOnNL_ne_nil _ (List.length_eq_zero.mp hlen.symm)
      have hnonl : ∀ l ∈ restoreAll (splitOnNL raw)
          (splitOnNL (normalizeNewlines e.content)), '\n' ∉ l := by
        intro l hl
        rcases restoreAll_mem _ _ l hl with h | h
        · exact splitOnNL_no_nl raw l h
        · exact splitOnNL_no_nl _ l h
      rw [splitOnNL_joinNL _ hne hnonl, hG, hres]

/-- Witness for C3 at the spec example: original line `price: £12.50`,
replacement line `price: ?12.50`, line index 0 of a `.py` file. -/
theorem C3_unicode_restored_witness :
    ∃ final, fsRead (execEdit (fun _ => [['r'], "m.py".data]) [['r']]
      ⟨[([['r'], "m.py".data],
        ("price: ".data ++ [Char.ofNat 163] ++ "12.50\n".data))], [], [], []⟩
      ⟨"m.py".data, opOverwrite, "price: ?12.50\n".data⟩).fs
      [['r'], "m.py".data] = some final ∧
    (splitOnNL final)[0]? = some ("price: ".data ++ [Char.ofNat 163] ++ "12.50".data) :=
  C3_unicode_restored (fun _ => [['r'], "m.py".data]) [['r']]
    ⟨[([['r'], "m.py".data],
      ("price: ".data ++ [Char.ofNat 163] ++ "12.50\n".data))], [], [], []⟩
    ⟨"m.py".data, opOverwrite, "price: ?12.50\n".data⟩
    ("price: ".data ++ [Char.ofNat 163] ++ "12.50\n".data) 0
    ("price: ".data ++ [Char.ofNat 163] ++ "12.50".data) "price: ?12.50".data
    (by decide) rfl (by decide) (by decide) (by decide) (by decide) (by decide)
    (by decide) (by decide) (by decide) (by decide) (by decide)

/-- Claim C5 counterexample: content `hi\x0b\x0c!` also loses its form-feed
(`\x0c`), not only the vertical tab, so "every other character preserved
exactly" fails: the written file is `hi!`. -/
theorem C5_counterexample_formfeed_also_stripped :
    fsRead (execEdit (fun _ => [['r'], "a.txt".data]) [['r']]
      ⟨[([['r'], "a.txt".data], "old".data)], [], [], []⟩
      ⟨"a.txt".data, opOverwrite,
        ['h', 'i', Char.ofNat 11, Char.ofNat 12, '!']⟩).fs
      [['r'], "a.txt".data] = some "hi!".data ∧
    Char.ofNat 12 ∈ ['h', 'i', Char.ofNat 11, Char.ofNat 12, '!'] ∧
    Char.ofNat 12 ∉ "hi!".data := by
  refine ⟨?_, ?_, ?_⟩ <;> decide

/-- Claim C5 amended: for a `create_or_overwrite_file` edit on an existing
in-jail non-`.py` target whose content contains a vertical tab but no
form-feed and no carriage return, and whose stripped content differs from the
file: the executor logs the control-character warning, still writes, and the
written text is exactly the content with every vertical tab removed and all
other characters preserved (so it contains no vertical tab). -/
theorem C5_amended_vertical_tab_stripped (R : Resolver) (root : Target)
    (st : ExecState) (e : Edit) (raw : PyStr)
    (hfile : e.file ≠ []) (hop : e.op = opOverwrite)
    (hjail : root <+: R e.file)
    (hread : fsRead st.fs (R e.file) = some raw)
    (hvt : Char.ofNat 11 ∈ e.content)
    (hff : Char.ofNat 12 ∉ e.content)
    (hcr : '\r' ∉ e.content)
    (hnotpy : ¬ targetExt (R e.file) = ".py".data)
    (hdiff : normalizeNewlines (normalizeNewlines raw) ≠
      e.content.filter (fun c => decide (¬ c = Char.ofNat 11))) :
    execEdit R root st e =
      { fs := fsWrite st.fs (R e.file)
          (e.content.filter (fun c => decide (¬ c = Char.ofNat 11))),
        touched := st.touched ++ [relStr root (R e.file)],
        writes := st.writes ++ [R e.file],
        logs := st.logs ++ [⟨e.file, e.op, reasonWarnNew⟩,
          ⟨e.file, e.op, reasonOverwriteOk⟩] } ∧
    Char.ofNat 11 ∉ e.content.filter (fun c => decide (¬ c = Char.ofNat 11)) := by
  have hnc : normalizeNewlines e.content = e.content :=
    normalizeNewlines_eq_self _ hcr
  have hsusp : containsSuspiciousControlChars (normalizeNewlines e.content) = true := by
    rw [hnc]
    unfold containsSuspiciousControlChars
    rw [List.any_eq_true]
    exact ⟨Char.ofNat 11, hvt, by decide⟩
  have hstrip : stripSuspiciousControlChars e.content =
      e.content.filter (fun c => decide (¬ c = Char.ofNat 11)) := by
    unfold stripSuspiciousControlChars
    apply List.filter_congr
    intro c hc
    have h12 : c ≠ Char.ofNat 12 := fun h => hff (h ▸ hc)
    by_cases h11 : c = Char.ofNat 11
    · simp [h11]
    · simp [h11, h12]
  have hnt : (overwriteNewText (decide (targetExt (R e.file) = ".py".data))
      (normalizeNewlines raw) e.content).2 =
      e.content.filter (fun c => decide (¬ c = Char.ofNat 11)) := by
    unfold overwriteNewText
    dsimp only
    rw [if_neg (by rw [decide_eq_true_eq]; exact hnotpy)]
    unfold suspProcess
    dsimp only
    rw [if_pos hsusp, hnc, hstrip]
  have hsusp1 : (overwriteNewText (decide (targetExt (R e.file) = ".py".data))
      (normalizeNewlines raw) e.content).1 = true := by
    rw [overwriteNewText_fst]
    unfold suspProcess
    dsimp only
    exact hsusp
  have hno : ¬ normalizeNewlines (normalizeNewlines raw) =
      (overwriteNewText (decide (targetExt (R e.file) = ".py".data))
        (normalizeNewlines raw) e.content).2 := by
    intro h
    exact hdiff (h.trans hnt)
  have h1 := execEdit_overwrite R root st e raw hfile hop hjail hread
  have hfin := finishEdit_write root (R e.file) e st (normalizeNewlines raw)
    (overwriteNewText (decide (targetExt (R e.file) = ".py".data))
      (normalizeNewlines raw) e.content).1 reasonWarnNew
    (overwriteNewText (decide (targetExt (R e.file) = ".py".data))
      (normalizeNewlines raw) e.content).2
    reasonNoopOverwrite reasonOverwriteOk hno
  have hnormf : normalizeNewlines
      (e.content.filter (fun c => decide (¬ c = Char.ofNat 11))) =
      e.content.filter (fun c => decide (¬ c = Char.ofNat 11)) :=
    normalizeNewlines_eq_self _ (fun hmem => hcr (List.mem_of_mem_filter hmem))
  constructor
  · rw [h1, hfin, hsusp1, hnt, hnormf]
    simp
  · intro hmem
    have := List.of_mem_filter hmem
    simp at this

/-- Witness for the amended C5: overwrite of existing `a.txt` (content `old`)
with `hi\x0b!`. -/
theorem C5_amended_vertical_tab_stripped_witness :
    execEdit (fun _ => [['r'], "a.txt".data]) [['r']]
      ⟨[([['r'], "a.txt".data], "old".data)], [], [], []⟩
      ⟨"a.txt".data, opOverwrite, ['h', 'i', Char.ofNat 11, '!']⟩ =
      { fs := fsWrite [([['r'], "a.txt".data], "old".data)]
          [['r'], "a.txt".data]
          (['h', 'i', Char.ofNat 11, '!'].filter
            (fun c => decide (¬ c = Char.ofNat 11))),
        touched := [] ++ [relStr [['r']] [['r'], "a.txt".data]],
        writes := [] ++ [[['r'], "a.txt".data]],
        logs := [] ++ [⟨"a.txt".data, opOverwrite, reasonWarnNew⟩,
          ⟨"a.txt".data, opOverwrite, reasonOverwriteOk⟩] } ∧
    Char.ofNat 11 ∉ ['h', 'i', Char.ofNat 11, '!'].filter
      (fun c => decide (¬ c = Char.ofNat 11)) :=
  C5_amended_vertical_tab_stripped (fun _ => [['r'], "a.txt".data]) [['r']]
    ⟨[([['r'], "a.txt".data], "old".data)], [], [], []⟩
    ⟨"a.txt".data, opOverwrite, ['h', 'i', Char.ofNat 11, '!']⟩ "old".data
    (by decide) rfl (by decide) (by decide) (by decide) (by decide) (by decide)
    (by decide) (by decide)

/-- Claim C9: the recipient of every sent email is determined solely by the
server-side `SMTP_TO` / `SMTP_TEST_TO` environment values — whatever message
is built carries exactly `sendEmailToAddr env` in its `To` header, and two
runs under the same environment but arbitrary different caller-supplied tool
arguments (in particular any `to` argument) produce the same recipient. -/
theorem C9_email_recipient_env_only (env : Getenv)
    (args1 args2 : List (String × PyStr)) :
    (∀ m : EmailMsg, sendEmailRun env args1 = .sent m →
      m.toAddr = sendEmailToAddr env) ∧
    (∀ m1 m2 : EmailMsg, sendEmailRun env args1 = .sent m1 →
      sendEmailRun env args2 = .sent m2 → m1.toAddr = m2.toAddr) := by
  have key : ∀ args : List (String × PyStr), ∀ m : EmailMsg,
      sendEmailRun env args = .sent m → m.toAddr = sendEmailToAddr env := by
    intro args m h
    unfold sendEmailRun at h
    dsimp only at h
    split at h
    · exact absurd h (by simp)
    · split at h
      · exact absurd h (by simp)
      · injection h with h2
        rw [← h2]
  refine ⟨key args1, fun m1 m2 h1 h2 => ?_⟩
  rw [key args1 m1 h1, key args2 m2 h2]

/-- Witness for C9: a run whose `tool_args` carry a hostile `to` argument
still addresses the configured recipient, and agrees with an argument-free
run. -/
theorem C9_email_recipient_env_only_witness :
    (⟨"bob@ghostfrog.dev".data, "ops@ghostfrog.dev".data,
      "(no subject)".data, []⟩ : EmailMsg).toAddr = sendEmailToAddr wEnv ∧
    (⟨"bob@ghostfrog.dev".data, "ops@ghostfrog.dev".data,
      "(no subject)".data, []⟩ : EmailMsg).toAddr =
    (⟨"bob@ghostfrog.dev".data, "ops@ghostfrog.dev".data,
      "(no subject)".data, []⟩ : EmailMsg).toAddr :=
  ⟨(C9_email_recipient_env_only wEnv
      [("to", "attacker@evil.example".data)] []).1
    ⟨"bob@ghostfrog.dev".data, "ops@ghostfrog.dev".data,
      "(no subject)".data, []⟩ (by decide),
   (C9_email_recipient_env_only wEnv
      [("to", "attacker@evil.example".data)] []).2
    ⟨"bob@ghostfrog.dev".data, "ops@ghostfrog.dev".data,
      "(no subject)".data, []⟩
    ⟨"bob@ghostfrog.dev".data, "ops@ghostfrog.dev".data,
      "(no subject)".data, []⟩ (by decide) (by decide)⟩

/-- Claim C10 counterexample: the title `"İ"` (U+0130) slugifies to
`"i" + U+0307` because Python lowercases U+0130 to two code points; U+0307 is
neither alphanumeric nor `-`, violating the claimed character discipline. -/
theorem C10_counterexample_combining_dot :
    slugify_for_markdown uLower uAlnum "20251012-120000".data
      [Char.ofNat 0x130] = ['i', Char.ofNat 0x307] ∧
    Char.ofNat 0x307 ∈ slugify_for_markdown uLower uAlnum
      "20251012-120000".data [Char.ofNat 0x130] ∧
    uAlnum (Char.ofNat 0x307) = false ∧
    Char.ofNat 0x307 ≠ '-' := by
  refine ⟨?_, ?_, ?_, ?_⟩ <;> decide

theorem infix_dd_containsDD (s : PyStr) (h : ['-', '-'] <:+: s) :
    containsDD s = true := by
  obtain ⟨pre, suf, hsum⟩ := h
  subst hsum
  induction pre with
  | nil => simp [containsDD]
  | cons c pre ih =>
    have hshift : (c :: pre) ++ ['-', '-'] ++ suf =
        c :: (pre ++ ['-', '-'] ++ suf) := by simp
    rw [hshift, containsDD, ih, Bool.or_true]

theorem not_infix_dd_of_containsDD (s : PyStr) (h : containsDD s = false) :
    ¬ ['-', '-'] <:+: s := by
  intro hinf
  have := infix_dd_containsDD s hinf
  rw [h] at this
  exact Bool.false_ne_true this

theorem containsDD_no_dash (s : PyStr) (h : ∀ c ∈ s, ¬ c = '-') :
    containsDD s = false := by
  induction s with
  | nil => rfl
  | cons c rest ih =>
    have hc : ¬ c = '-' := h c (by simp)
    simp [containsDD, hc, ih (fun x hx => h x (List.mem_cons_of_mem _ hx))]

theorem getLast?_cons_ne_nil (a : Char) (l : PyStr) (h : l ≠ []) :
    (a :: l).getLast? = l.getLast? := by
  cases l with
  | nil => exact absurd rfl h
  | cons b m => exact List.getLast?_cons_cons

theorem getLast?_append_right (pre u : PyStr) (h : u ≠ []) :
    (pre ++ u).getLast? = u.getLast? := by
  induction pre with
  | nil => rfl
  | cons a pre ih =>
    rw [List.cons_append, getLast?_cons_ne_nil a (pre ++ u)
      (fun hc => h (List.append_eq_nil.mp hc).2), ih]

theorem containsDD_append (a b : PyStr) (ha : containsDD a = false)
    (hb : containsDD b = false)
    (hmid : ¬ (a.getLast? = some '-' ∧ b.head? = some '-')) :
    containsDD (a ++ b) = false := by
  induction a with
  | nil => exact hb
  | cons c rest ih =>
    cases rest with
    | nil =>
      simp only [List.cons_append, List.nil_append, containsDD,
        Bool.or_eq_false_iff]
      constructor
      · by_cases hc : c = '-'
        · have hbh : ¬ b.head? = some '-' := fun hh =>
            hmid ⟨by simp [hc], hh⟩
          simp [hbh]
        · simp [hc]
      · exact hb
    | cons d rest2 =>
      rw [containsDD, Bool.or_eq_false_iff, List.head?_cons] at ha
      rw [List.cons_append, containsDD, List.cons_append, List.head?_cons,
        Bool.or_eq_false_iff]
      refine ⟨ha.1, ?_⟩
      rw [← List.cons_append]
      exact ih ha.2 (fun hh => hmid ⟨by
        rw [getLast?_cons_ne_nil c (d :: rest2) (by simp)]
        exact hh.1, hh.2⟩)

theorem rp_ne_nil (s : PyStr) (h : s ≠ []) : replaceDashPairs s ≠ [] := by
  induction s using replaceDashPairs.induct with
  | case1 => exact absurd rfl h
  | case2 c => simp [replaceDashPairs]
  | case3 c d rest hcd ih =>
    obtain ⟨hc, hd⟩ := hcd
    subst hc; subst hd
    simp [replaceDashPairs]
  | case4 c d rest hcd ih => simp [replaceDashPairs, hcd]

theorem rp_head (s : PyStr) : (replaceDashPairs s).head? = s.head? := by
  induction s using replaceDashPairs.induct with
  | case1 => rfl
  | case2 c => rfl
  | case3 c d rest hcd ih =>
    obtain ⟨hc, hd⟩ := hcd
    subst hc; subst hd
    simp [replaceDashPairs]
  | case4 c d rest hcd ih => simp [replaceDashPairs, hcd]

theorem rp_eq_dash (rest : PyStr) :
    replaceDashPairs ('-' :: '-' :: rest) = '-' :: replaceDashPairs rest := by
  simp [replaceDashPairs]

theorem rp_eq_other (c d : Char) (rest : PyStr) (h : ¬ (c = '-' ∧ d = '-')) :
    replaceDashPairs (c :: d :: rest) = c :: replaceDashPairs (d :: rest) := by
  simp [replaceDashPairs, h]

theorem rp_getLast (s : PyStr) :
    (replaceDashPairs s).getLast? = s.getLast? := by
  induction s using replaceDashPairs.induct with
  | case1 => rfl
  | case2 c => rfl
  | case3 c d rest hcd ih =>
    obtain ⟨hc, hd⟩ := hcd
    subst hc; subst hd
    rw [rp_eq_dash]
    cases rest with
    | nil => rfl
    | cons r rs =>
      rw [getLast?_cons_ne_nil _ _ (rp_ne_nil (r :: rs) (by simp)), ih,
        List.getLast?_cons_cons, List.getLast?_cons_cons]
  | case4 c d rest hcd ih =>
    rw [rp_eq_other c d rest hcd,
      getLast?_cons_ne_nil _ _ (rp_ne_nil (d :: rest) (by simp)), ih,
      List.getLast?_cons_cons]

theorem rp_mem (s : PyStr) : ∀ x ∈ replaceDashPairs s, x ∈ s := by
  induction s using replaceDashPairs.induct with
  | case1 => intro x hx; simp [replaceDashPairs] at hx
  | case2 c => simp [replaceDashPairs]
  | case3 c d rest hcd ih =>
    obtain ⟨hc, hd⟩ := hcd
    subst hc; subst hd
    intro x hx
    rw [rp_eq_dash] at hx
    rcases List.mem_cons.mp hx with h | h
    · simp [h]
    · exact List.mem_cons_of_mem _ (List.mem_cons_of_mem _ (ih x h))
  | case4 c d rest hcd ih =>
    intro x hx
    rw [rp_eq_other c d rest hcd] at hx
    rcases List.mem_cons.mp hx with h | h
    · simp [h]
    · exact List.mem_cons_of_mem _ (ih x h)

theorem rp_length_le (s : PyStr) :
    (replaceDashPairs s).length ≤ s.length := by
  induction s using replaceDashPairs.induct with
  | case1 => simp [replaceDashPairs]
  | case2 c => simp [replaceDashPairs]
  | case3 c d rest hcd ih =>
    obtain ⟨hc, hd⟩ := hcd
    subst hc; subst hd
    rw [rp_eq_dash]
    simp only [List.length_cons]
    omega
  | case4 c d rest hcd ih =>
    rw [rp_eq_other c d rest hcd]
    simp only [List.length_cons] at ih ⊢
    omega

theorem rp_length_lt (s : PyStr) (h : containsDD s = true) :
    (replaceDashPairs s).length < s.length := by
  induction s using replaceDashPairs.induct with
  | case1 => simp [containsDD] at h
  | case2 c => simp [containsDD] at h
  | case3 c d rest hcd ih =>
    obtain ⟨hc, hd⟩ := hcd
    subst hc; subst hd
    rw [rp_eq_dash]
    have := rp_length_le rest
    simp only [List.length_cons]
    omega
  | case4 c d rest hcd ih =>
    have hclause : (decide (c = '-') && decide ((d :: rest).head? = some '-')) = false := by
      by_cases hc : c = '-'
      · by_cases hd : d = '-'
        · exact absurd ⟨hc, hd⟩ hcd
        · simp [hd]
      · simp [hc]
    have hrest : containsDD (d :: rest) = true := by
      rw [containsDD, hclause] at h
      simpa using h
    rw [rp_eq_other c d rest hcd]
    have := ih hrest
    simp only [List.length_cons] at this ⊢
    omega

theorem collapseFuel_no_dd : ∀ (n : Nat) (s : PyStr), s.length ≤ n →
    ¬ ['-', '-'] <:+: collapseDashesFuel n s := by
  intro n
  induction n with
  | zero =>
    intro s hs hinf
    have hempty : s = [] := List.length_eq_zero.mp (Nat.le_zero.mp hs)
    subst hempty
    have := hinf.length_le
    simp [collapseDashesFuel] at this
  | succ n ih =>
    intro s hs
    unfold collapseDashesFuel
    split
    · rename_i hdd
      apply ih
      have := rp_length_lt s (infix_dd_containsDD s hdd)
      omega
    · rename_i hdd
      exact hdd

theorem collapseFuel_head : ∀ (n : Nat) (s : PyStr),
    (collapseDashesFuel n s).head? = s.head? := by
  intro n
  induction n with
  | zero => intro s; rfl
  | succ n ih =>
    intro s
    unfold collapseDashesFuel
    split
    · rw [ih, rp_head]
    · rfl

theorem collapseFuel_getLast : ∀ (n : Nat) (s : PyStr),
    (collapseDashesFuel n s).getLast? = s.getLast? := by
  intro n
  induction n with
  | zero => intro s; rfl
  | succ n ih =>
    intro s
    unfold collapseDashesFuel
    split
    · rw [ih, rp_getLast]
    · rfl

theorem collapseFuel_mem : ∀ (n : Nat) (s : PyStr),
    ∀ x ∈ collapseDashesFuel n s, x ∈ s := by
  intro n
  induction n with
  | zero => intro s x hx; exact hx
  | succ n ih =>
    intro s x hx
    unfold collapseDashesFuel at hx
    split at hx
    · exact rp_mem s x (ih _ x hx)
    · exact hx

theorem collapseFuel_ne_nil : ∀ (n : Nat) (s : PyStr), s ≠ [] →
    collapseDashesFuel n s ≠ [] := by
  intro n
  induction n with
  | zero => intro s h; exact h
  | succ n ih =>
    intro s h
    unfold collapseDashesFuel
    split
    · exact ih _ (rp_ne_nil s h)
    · exact h

theorem mem_dropWhile (p : Char → Bool) (l : PyStr) :
    ∀ x ∈ l.dropWhile p, x ∈ l := by
  induction l with
  | nil => simp
  | cons a l ih =>
    intro x hx
    rw [List.dropWhile_cons] at hx
    split at hx
    · exact List.mem_cons_of_mem _ (ih x hx)
    · exact hx

theorem head_dropWhile_false (p : Char → Bool) (l : PyStr) (c : Char)
    (h : (l.dropWhile p).head? = some c) : p c = false := by
  induction l with
  | nil => simp [List.dropWhile] at h
  | cons a l ih =>
    rw [List.dropWhile_cons] at h
    split at h
    · exact ih h
    · rename_i hpa
      rw [List.head?_cons, Option.some_inj] at h
      subst h
      simpa using hpa

theorem dropWhile_getLast (p : Char → Bool) (l : PyStr)
    (h : l.dropWhile p ≠ []) : (l.dropWhile p).getLast? = l.getLast? := by
  induction l with
  | nil => rfl
  | cons a l ih =>
    by_cases hpa : p a = true
    · rw [List.dropWhile_cons, if_pos hpa] at h ⊢
      have hl : l ≠ [] := by
        intro hc
        subst hc
        exact h rfl
      rw [ih h, getLast?_cons_ne_nil a l hl]
    · rw [List.dropWhile_cons, if_neg hpa]

theorem stripDashes_mem (s : PyStr) : ∀ x ∈ stripDashes s, x ∈ s := by
  intro x hx
  unfold stripDashes at hx
  rw [List.mem_reverse] at hx
  have h1 := mem_dropWhile _ _ x hx
  rw [List.mem_reverse] at h1
  exact mem_dropWhile _ _ x h1

theorem stripDashes_head (s : PyStr) (c : Char)
    (h : (stripDashes s).head? = some c) : ¬ c = '-' := by
  unfold stripDashes at h
  rw [List.head?_reverse] at h
  have hune : (s.dropWhile (fun x => decide (x = '-'))).reverse.dropWhile
      (fun x => decide (x = '-')) ≠ [] := by
    intro hc
    rw [hc] at h
    simp at h
  rw [dropWhile_getLast _ _ hune, List.getLast?_reverse] at h
  have := head_dropWhile_false _ _ c h
  simpa using this

theorem stripDashes_getLast (s : PyStr) (c : Char)
    (h : (stripDashes s).getLast? = some c) : ¬ c = '-' := by
  unfold stripDashes at h
  rw [List.getLast?_reverse] at h
  have := head_dropWhile_false _ _ c h
  simpa using this

theorem stripDashes_all_dash (s : PyStr) (h : ∀ c ∈ s, c = '-') :
    stripDashes s = [] := by
  unfold stripDashes
  have h1 : s.dropWhile (fun x => decide (x = '-')) = [] :=
    List.dropWhile_eq_nil_iff.mpr (fun x hx => by simp [h x hx])
  rw [h1]
  rfl

theorem pyStrip_mem (s : PyStr) : ∀ x ∈ pyStrip s, x ∈ s := by
  intro x hx
  unfold pyStrip pyRstrip pyLstrip at hx
  rw [List.mem_reverse] at hx
  have h1 := mem_dropWhile _ _ x hx
  rw [List.mem_reverse] at h1
  exact mem_dropWhile _ _ x h1

theorem mem_of_getLast_eq (l : PyStr) (a : Char) (h : l.getLast? = some a) :
    a ∈ l := by
  have hmem : a ∈ l.getLast? := h
  rcases List.mem_getLast?_eq_getLast hmem with ⟨hne, heq⟩
  rw [heq]
  exact List.getLast_mem hne

/-- Claim C10 amended: for every title, the slug is non-empty, has no `--`
substring and no leading or trailing dash, and — provided every alphanumeric
character lowercases to alphanumeric characters (true of ASCII, false e.g.
for U+0130, see the counterexample) — contains only alphanumeric characters
and dashes; a title with no alphanumeric character at all yields the
timestamp fallback `note-<digits>-<digits>`. -/
theorem C10_amended_slug_well_formed (lower : Char → PyStr)
    (isAlnum : Char → Bool) (d1 d2 title : PyStr)
    (hd1 : d1 ≠ []) (hd2 : d2 ≠ [])
    (hdig : ∀ c ∈ d1 ++ d2, c.isDigit = true)
    (hlow : ∀ c, isAlnum c = true → ∀ x ∈ lower c, isAlnum x = true)
    (hascii : ∀ c : Char, c.isAlphanum = true → isAlnum c = true) :
    slugify_for_markdown lower isAlnum (d1 ++ '-' :: d2) title ≠ [] ∧
    ¬ ['-', '-'] <:+: slugify_for_markdown lower isAlnum (d1 ++ '-' :: d2) title ∧
    (slugify_for_markdown lower isAlnum (d1 ++ '-' :: d2) title).head? ≠ some '-' ∧
    (slugify_for_markdown lower isAlnum (d1 ++ '-' :: d2) title).getLast? ≠ some '-' ∧
    (∀ c ∈ slugify_for_markdown lower isAlnum (d1 ++ '-' :: d2) title,
      isAlnum c = true ∨ c = '-') ∧
    ((∀ c ∈ title, isAlnum c = false) →
      slugify_for_markdown lower isAlnum (d1 ++ '-' :: d2) title =
        "note-".data ++ d1 ++ '-' :: d2) := by
  have hdnd : ∀ c : Char, c.isDigit = true → ¬ c = '-' := by
    intro c h hc
    rw [hc] at h
    exact absurd h (by decide)
  have hd1dig : ∀ c ∈ d1, c.isDigit = true :=
    fun c hc => hdig c (List.mem_append.mpr (Or.inl hc))
  have hd2dig : ∀ c ∈ d2, c.isDigit = true :=
    fun c hc => hdig c (List.mem_append.mpr (Or.inr hc))
  unfold slugify_for_markdown
  dsimp only
  split
  · rename_i hbase
    have hc1 : containsDD d1 = false :=
      containsDD_no_dash d1 (fun c hc => hdnd c (hd1dig c hc))
    have hc2 : containsDD d2 = false :=
      containsDD_no_dash d2 (fun c hc => hdnd c (hd2dig c hc))
    have hcdash2 : containsDD ('-' :: d2) = false := by
      rw [containsDD, Bool.or_eq_false_iff]
      refine ⟨?_, hc2⟩
      cases d2 with
      | nil => exact absurd rfl hd2
      | cons x xs =>
        have hx : ¬ x = '-' := hdnd x (hd2dig x (by simp))
        simp [hx]
    have hinner : containsDD (d1 ++ '-' :: d2) = false := by
      apply containsDD_append d1 ('-' :: d2) hc1 hcdash2
      intro hh
      have hmem := mem_of_getLast_eq d1 '-' hh.1
      exact hdnd '-' (hd1dig '-' hmem) rfl
    have hall : containsDD ("note-".data ++ (d1 ++ '-' :: d2)) = false := by
      apply containsDD_append _ _ (by decide) hinner
      intro hh
      obtain ⟨_, hh2⟩ := hh
      rw [head_append_of_ne_nil d1 _ hd1] at hh2
      cases d1 with
      | nil => exact absurd rfl hd1
      | cons x xs =>
        rw [List.head?_cons, Option.some_inj] at hh2
        exact hdnd x (hd1dig x (by simp)) hh2
    refine ⟨by simp, not_infix_dd_of_containsDD _ hall, ?_, ?_, ?_, fun _ => rfl⟩
    · intro h
      rw [head_append_of_ne_nil "note-".data _ (by decide)] at h
      exact absurd h (by decide)
    · intro h
      rw [getLast?_append_right "note-".data _ (by simp),
        getLast?_append_right d1 _ (by simp),
        getLast?_cons_ne_nil '-' d2 hd2] at h
      have hmem := mem_of_getLast_eq d2 '-' h
      exact hdnd '-' (hd2dig '-' hmem) rfl
    · intro c hc
      rcases List.mem_append.mp hc with hnote | hrest
      · simp only [List.mem_cons, List.not_mem_nil, or_false] at hnote
        rcases hnote with h | h | h | h | h
        · exact Or.inl (hascii c (by rw [h]; decide))
        · exact Or.inl (hascii c (by rw [h]; decide))
        · exact Or.inl (hascii c (by rw [h]; decide))
        · exact Or.inl (hascii c (by rw [h]; decide))
        · exact Or.inr h
      · rcases List.mem_append.mp hrest with h1 | h1
        · exact Or.inl (hascii c (by simp [Char.isAlphanum, hd1dig c h1]))
        · rcases List.mem_cons.mp h1 with h2 | h2
          · exact Or.inr h2
          · exact Or.inl (hascii c (by simp [Char.isAlphanum, hd2dig c h2]))
  · rename_i hbase
    refine ⟨collapseFuel_ne_nil _ _ hbase, collapseFuel_no_dd _ _ le_rfl,
      ?_, ?_, ?_, ?_⟩
    · intro h
      unfold collapseDashes at h
      rw [collapseFuel_head] at h
      exact stripDashes_head _ _ h rfl
    · intro h
      unfold collapseDashes at h
      rw [collapseFuel_getLast] at h
      exact stripDashes_getLast _ _ h rfl
    · intro c hc
      have h1 := collapseFuel_mem _ _ c hc
      have h2 := stripDashes_mem _ c h1
      rcases List.mem_flatten.mp h2 with ⟨piece, hpiece, hcp⟩
      rcases List.mem_map.mp hpiece with ⟨ch, hch, hfch⟩
      by_cases ha : isAlnum ch = true
      · rw [if_pos ha] at hfch
        exact Or.inl (hlow ch ha c (hfch ▸ hcp))
      · rw [if_neg ha] at hfch
        rw [← hfch] at hcp
        rcases List.mem_cons.mp hcp with h3 | h3
        · exact Or.inr h3
        · simp at h3
    · intro hno
      have hallDash : ∀ x ∈ ((pyStrip title).map
          (fun ch => if isAlnum ch = true then lower ch else ['-'])).flatten,
          x = '-' := by
        intro x hx
        rcases List.mem_flatten.mp hx with ⟨piece, hpiece, hxp⟩
        rcases List.mem_map.mp hpiece with ⟨ch, hch, hfch⟩
        have hfalse : ¬ isAlnum ch = true := by
          rw [hno ch (pyStrip_mem title ch hch)]
          exact Bool.false_ne_true
        rw [if_neg hfalse] at hfch
        rw [← hfch] at hxp
        rcases List.mem_cons.mp hxp with h3 | h3
        · exact h3
        · simp at h3
      exact absurd (stripDashes_all_dash _ hallDash) hbase

/-- Witness for the amended C10 at the title `my note 1!` and the timestamp
`20251012-120000`. -/
theorem C10_amended_slug_well_formed_witness :
    slugify_for_markdown wLowerId wAlnumAscii
      ("20251012".data ++ '-' :: "120000".data) "my note 1!".data ≠ [] ∧
    ¬ ['-', '-'] <:+: slugify_for_markdown wLowerId wAlnumAscii
      ("20251012".data ++ '-' :: "120000".data) "my note 1!".data ∧
    (slugify_for_markdown wLowerId wAlnumAscii
      ("20251012".data ++ '-' :: "120000".data) "my note 1!".data).head? ≠
      some '-' ∧
    (slugify_for_markdown wLowerId wAlnumAscii
      ("20251012".data ++ '-' :: "120000".data) "my note 1!".data).getLast? ≠
      some '-' ∧
    (∀ c ∈ slugify_for_markdown wLowerId wAlnumAscii
      ("20251012".data ++ '-' :: "120000".data) "my note 1!".data,
      wAlnumAscii c = true ∨ c = '-') ∧
    ((∀ c ∈ "my note 1!".data, wAlnumAscii c = false) →
      slugify_for_markdown wLowerId wAlnumAscii
        ("20251012".data ++ '-' :: "120000".data) "my note 1!".data =
        "note-".data ++ "20251012".data ++ '-' :: "120000".data) :=
  C10_amended_slug_well_formed wLowerId wAlnumAscii
    "20251012".data "120000".data "my note 1!".data
    (by decide) (by decide) (by decide)
    (fun c hc x hx => by
      have hx2 : x = c := by simpa [wLowerId] using hx
      rw [hx2]
      exact hc)
    (fun c h => h)

end Chad

